import Mathlib

/-!
SmallUsableCode: the hybrid TTL + LRU cache of `src/hybrid.h`, the two TTL stores
of `src/cache.h` and `src/cache.cpp`, and the trie of `src/trie.cpp`.

A shallow embedding of `HybridCache<Key, Value>`, `KeyValueStore<T, U>` and `Trie`,
and a verification of their specification.  The conventions below are those of the
hybrid cache; the other two components state theirs where they are defined.

Modelling conventions

* The steady clock is an explicit argument `now : Int` of every operation that
  reads it; time points and `ttlSeconds` are counted in the same unit (seconds),
  so `now + std::chrono::seconds(ttlSeconds)` is `now + ttlSeconds`.  Time points
  are unbounded integers.
* `std::unordered_map<Key, CacheEntry>` is an association list (`store`); the
  iteration order of the table is never observed by the code.
* `std::list<Key>` is a list of nodes `(node id, key)`.  A list iterator is the
  id of the node it points at; ids are handed out by the counter `nextNode` and
  never reused, so an iterator to an erased node stays invalid.
* `std::priority_queue<ExpiryEntry, ..., CompareExpiry>` (a min-heap on the time
  point) is a list kept in ascending order of time point: `top` is the head,
  `pop` drops the head, `push` inserts in order.
* Undefined behaviour of the C++ code (`front()` on an empty list, `erase` of an
  invalid iterator) is the result `none`.
* Every public operation holds the mutex for its whole body, so an operation is
  one atomic step of the sequential model.
-/

/-- The struct `CacheEntry` of `src/hybrid.h`: value, expiry time point and the
iterator `lruIt` into the recency list (the id of a list node). -/
structure HybridCache.CacheEntry (V : Type) where
  value : V
  expiry : Int
  lruIt : Nat
deriving DecidableEq, Repr

/-- The data members of `HybridCache` (`store`, `lruList`, `expiryQueue`,
`capacity`), together with `nextNode`, the id the next allocated list node gets. -/
structure HybridCache (K V : Type) where
  store : List (K × HybridCache.CacheEntry V)
  lruList : List (Nat × K)
  nextNode : Nat
  expiryQueue : List (Int × K)
  capacity : Nat
deriving DecidableEq, Repr

namespace HybridCache

section Containers

variable {K V E : Type} [DecidableEq K]

/-- The call `store.find(key)`: the entry stored under `key`, `none` for `store.end()`. -/
def find : List (K × E) → K → Option E
  | [], _ => none
  | (k, e) :: rest, key => if k = key then some e else find rest key

/-- The call `store.erase(key)` (equally `store.erase(it)` for the iterator `it`
found for `key`): the table without `key`. -/
def eraseKey (s : List (K × E)) (key : K) : List (K × E) :=
  s.filter (fun p => decide (p.1 ≠ key))

/-- The assignment `store[key] = e`: overwrite the entry of a present key in
place, add the pair for an absent key. -/
def assign (s : List (K × E)) (key : K) (e : E) : List (K × E) :=
  match find s key with
  | some _ => s.map (fun p => if p.1 = key then (key, e) else p)
  | none => s ++ [(key, e)]

/-- The call `lruList.erase(it)`: unlink the node the iterator points at.  An
iterator that points at no node of the list is undefined behaviour (`none`). -/
def eraseNode (l : List (Nat × K)) (it : Nat) : Option (List (Nat × K)) :=
  if l.any (fun p => decide (p.1 = it)) then some (l.filter (fun p => decide (p.1 ≠ it)))
  else none

/-- The call `expiryQueue.push(e)`: insert `e` into the queue, which is kept in
ascending order of time point (`CompareExpiry` compares `first` only). -/
def pushExpiry : List (Int × K) → Int × K → List (Int × K)
  | [], e => [e]
  | x :: rest, e => if e.1 < x.1 then e :: x :: rest else x :: pushExpiry rest e

end Containers

section Operations

variable {K V : Type} [DecidableEq K]

/-- The constructor `HybridCache(size_t cap)`: all containers empty, `capacity = cap`.
The constructor checks nothing about `cap`. -/
def new (cap : Nat) : HybridCache K V :=
  { store := [], lruList := [], nextNode := 0, expiryQueue := [], capacity := cap }

/-- The outcome of a constructor call, `none` standing for a construction that
fails.  The constructor of the source has no failing path: it stores `cap` and
starts the cleaner thread. -/
def construct (cap : Nat) : Option (HybridCache K V) :=
  some (new cap)

/-- The loop of `cleanupExpired` over the queue: while the queue is not empty and
its top has a time point `≤ now`, pop it and, if its key is in the table with an
expiry `≤ now`, erase the key from the recency list and from the table.  Returns
the table, the recency list and the rest of the queue. -/
def cleanupLoop (now : Int) :
    List (Int × K) → List (K × CacheEntry V) → List (Nat × K) →
      Option (List (K × CacheEntry V) × List (Nat × K) × List (Int × K))
  | [], store, lru => some (store, lru, [])
  | (t, key) :: rest, store, lru =>
    if t ≤ now then
      match find store key with
      | some e =>
        if e.expiry ≤ now then
          match eraseNode lru e.lruIt with
          | some lru' => cleanupLoop now rest (eraseKey store key) lru'
          | none => none
        else cleanupLoop now rest store lru
      | none => cleanupLoop now rest store lru
    else some (store, lru, (t, key) :: rest)

/-- The private member `cleanupExpired`, run by the background thread under the
mutex once per iteration; `now` is the clock reading it takes. -/
def cleanupExpired (c : HybridCache K V) (now : Int) : Option (HybridCache K V) :=
  match cleanupLoop now c.expiryQueue c.store c.lruList with
  | some (store, lru, queue) =>
    some { c with store := store, lruList := lru, expiryQueue := queue }
  | none => none

/-- The first part of `put`: unlink the node of a present key, or evict the front
of the recency list when the key is new and `store.size() >= capacity`. -/
def putMakeRoom (c : HybridCache K V) (key : K) :
    Option (List (K × CacheEntry V) × List (Nat × K)) :=
  match find c.store key with
  | some e =>
    match eraseNode c.lruList e.lruIt with
    | some lru => some (c.store, lru)
    | none => none
  | none =>
    if c.capacity ≤ c.store.length then
      match c.lruList with
      | [] => none
      | (_, lruKey) :: rest => some (eraseKey c.store lruKey, rest)
    else some (c.store, c.lruList)

/-- The member `put(key, value, ttlSeconds)` called when the clock reads `now`. -/
def put (c : HybridCache K V) (key : K) (value : V) (ttlSeconds : Int) (now : Int) :
    Option (HybridCache K V) :=
  let expiry := now + ttlSeconds
  match putMakeRoom c key with
  | some (store, lru) =>
    some { store := assign store key { value := value, expiry := expiry, lruIt := c.nextNode }
           lruList := lru ++ [(c.nextNode, key)]
           nextNode := c.nextNode + 1
           expiryQueue := pushExpiry c.expiryQueue (expiry, key)
           capacity := c.capacity }
  | none => none

/-- The member `get(key)` called when the clock reads `now`: the returned
optional and the cache afterwards. -/
def get (c : HybridCache K V) (key : K) (now : Int) : Option (Option V × HybridCache K V) :=
  match find c.store key with
  | none => some (none, c)
  | some e =>
    if e.expiry ≤ now then some (none, c)
    else
      match eraseNode c.lruList e.lruIt with
      | some lru =>
        some (some e.value,
          { c with
            lruList := lru ++ [(c.nextNode, key)]
            nextNode := c.nextNode + 1
            store := assign c.store key { e with lruIt := c.nextNode } })
      | none => none

/-- The member `exists(key)` called when the clock reads `now`: the returned
flag and the cache afterwards (the body writes to no member).  It is named
`existsKey` because `exists` is a reserved word of Lean. -/
def existsKey (c : HybridCache K V) (key : K) (now : Int) : Bool × HybridCache K V :=
  match find c.store key with
  | some e => (decide (now < e.expiry), c)
  | none => (false, c)

/-- The member `remove(key)`: the returned flag and the cache afterwards. -/
def remove (c : HybridCache K V) (key : K) : Option (Bool × HybridCache K V) :=
  match find c.store key with
  | none => some (false, c)
  | some e =>
    match eraseNode c.lruList e.lruIt with
    | some lru => some (true, { c with lruList := lru, store := eraseKey c.store key })
    | none => none

/-- The member `size()`: `store.size()`. -/
def size (c : HybridCache K V) : Nat :=
  c.store.length

/-- One call on the cache: a public operation, or one iteration of the
background cleaner, which runs `cleanupExpired` under the mutex. -/
inductive Op (K V : Type) where
  | put (key : K) (value : V) (ttlSeconds : Int)
  | get (key : K)
  | existsKey (key : K)
  | remove (key : K)
  | size
  | cleanupExpired
deriving DecidableEq, Repr

/-- The cache after one call made when the clock reads `now`. -/
def step (c : HybridCache K V) (op : Op K V) (now : Int) : Option (HybridCache K V) :=
  match op with
  | Op.put key value ttlSeconds => put c key value ttlSeconds now
  | Op.get key => (get c key now).map Prod.snd
  | Op.existsKey key => some (existsKey c key now).2
  | Op.remove key => (remove c key).map Prod.snd
  | Op.size => some c
  | Op.cleanupExpired => cleanupExpired c now

/-- The cache after a sequence of calls, each with its own clock reading. -/
def runOps : HybridCache K V → List (Op K V × Int) → Option (HybridCache K V)
  | c, [] => some c
  | c, (op, now) :: rest =>
    match step c op now with
    | some c' => runOps c' rest
    | none => none

/-- The payload of an entry: its value and its expiry, without the iterator. -/
def entryData (e : CacheEntry V) : V × Int :=
  (e.value, e.expiry)

/-- The keys of the recency list, least recently used first. -/
def lruKeys (c : HybridCache K V) : List K :=
  c.lruList.map Prod.snd

/-- The keys of the entry table. -/
def storeKeys (c : HybridCache K V) : List K :=
  c.store.map Prod.fst

/-- The state a drain at time `now` is meant to leave: no pair of the expiry queue
has a time point `≤ now` and no entry of the table has an expiry `≤ now`. -/
def Drained (c : HybridCache K V) (now : Int) : Prop :=
  (∀ p ∈ c.expiryQueue, now < p.1) ∧ (∀ p ∈ c.store, now < p.2.expiry)

/-- A state is reachable when a sequence of calls leads to it from the cache
built by the constructor with a capacity of at least one. -/
def Reachable (c : HybridCache K V) : Prop :=
  ∃ (cap : Nat) (ops : List (Op K V × Int)), 1 ≤ cap ∧ runOps (new cap) ops = some c

end Operations

section Invariant

variable {K V : Type} [DecidableEq K]

/-- The representation invariant that ties the entry table to the recency list:
the table has one entry per key, list nodes have distinct ids below the next
id to hand out, the iterator of every entry points at the node that carries the
key of the entry, and every node carries the key of an entry whose iterator
points back at it. -/
structure Linked (s : List (K × CacheEntry V)) (l : List (Nat × K)) (next : Nat) : Prop where
  storeNodup : (s.map Prod.fst).Nodup
  nodesNodup : (l.map Prod.fst).Nodup
  nodesFresh : ∀ p ∈ l, p.1 < next
  storeLinked : ∀ k e, find s k = some e → (e.lruIt, k) ∈ l
  lruLinked : ∀ n k, (n, k) ∈ l → ∃ e, find s k = some e ∧ e.lruIt = n

/-- A cache state is well formed when its table and recency list are linked. -/
def WellFormed (c : HybridCache K V) : Prop :=
  Linked c.store c.lruList c.nextNode

/-- The invariant that ties the entry table to the expiry queue: the queue is in
ascending order of time point, and every entry of the table has its pair
`(expiry, key)` in the queue. -/
def QueueOk (s : List (K × CacheEntry V)) (q : List (Int × K)) : Prop :=
  q.Pairwise (fun a b => a.1 ≤ b.1) ∧ ∀ k e, find s k = some e → (e.expiry, k) ∈ q

end Invariant

section Scenarios

/-- Scenario of the specification: capacity 2, `put(a,1,100)`, `put(b,2,100)`,
all calls at time 0. -/
def scenarioAB : List (Op String Nat × Int) :=
  [(Op.put "a" 1 100, 0), (Op.put "b" 2 100, 0)]

/-- Scenario of the specification: capacity 2, `put(a,1,100)`, `put(b,2,100)`,
`put(c,3,100)`, all calls at time 0. -/
def scenarioABC : List (Op String Nat × Int) :=
  [(Op.put "a" 1 100, 0), (Op.put "b" 2 100, 0), (Op.put "c" 3 100, 0)]

/-- Scenario of the specification: capacity 2, `put(a,1,100)`, `put(b,2,100)`,
`get(a)`, `put(c,3,100)`, all calls at time 0. -/
def scenarioGetA : List (Op String Nat × Int) :=
  [(Op.put "a" 1 100, 0), (Op.put "b" 2 100, 0), (Op.get "a", 0), (Op.put "c" 3 100, 0)]

/-- The cache of capacity 2 after `scenarioAB`. -/
def cacheAB : HybridCache String Nat :=
  { store := [("a", { value := 1, expiry := 100, lruIt := 0 }),
              ("b", { value := 2, expiry := 100, lruIt := 1 })]
    lruList := [(0, "a"), (1, "b")]
    nextNode := 2
    expiryQueue := [(100, "a"), (100, "b")]
    capacity := 2 }

/-- The cache of capacity 5 after `put(a, apple, 1)` at time 0. -/
def cacheA1 : HybridCache String String :=
  { store := [("a", { value := "apple", expiry := 1, lruIt := 0 })]
    lruList := [(0, "a")]
    nextNode := 1
    expiryQueue := [(1, "a")]
    capacity := 5 }

/-- The three `put` calls of the test driver `main` of `src/hybrid.h`, made at
time 0 on a cache of capacity 5. -/
def driverPuts : List (Op String String × Int) :=
  [(Op.put "a" "apple" 3, 0), (Op.put "b" "banana" 5, 0), (Op.put "c" "cherry" 6, 0)]

/-- A refresh that leaves a stale pair: capacity 3, `put(a,1,0)` at time 5 (expired
at once), then `put(a,7,100)` at time 6; the pair `(5, a)` stays in the queue. -/
def scenarioRefresh : List (Op String Nat × Int) :=
  [(Op.put "a" 1 0, 5), (Op.put "a" 7 100, 6)]

/-- The cache of capacity 3 after `scenarioRefresh`. -/
def cacheRefreshed : HybridCache String Nat :=
  { store := [("a", { value := 7, expiry := 106, lruIt := 1 })]
    lruList := [(1, "a")]
    nextNode := 2
    expiryQueue := [(5, "a"), (106, "a")]
    capacity := 3 }

end Scenarios

end HybridCache

/-! ## The two TTL stores, `src/cache.h` and `src/cache.cpp`

Both files define a class `KeyValueStore<T, U>` with the same data members and the
same `put`; they differ in the last test of `get`.  The table is an association
list as above (`HybridCache.find`, `HybridCache.assign`, `HybridCache.eraseKey` are
the calls `find`, `operator[]` assignment and `erase` of `std::unordered_map`).  The
priority queue with `std::greater<>` is a list kept in ascending lexicographic
order of the pairs `(time point, key)`.  The clock reading is the argument `now`.
`U()` is `default`. -/

/-- The struct `ValueEntry` of both files. -/
structure KeyValueStore.ValueEntry (U : Type) where
  value : U
  expiry : Int
deriving DecidableEq, Repr

/-- The data members `store` and `expiry_queue` of `KeyValueStore`. -/
structure KeyValueStore (T U : Type) where
  store : List (T × KeyValueStore.ValueEntry U)
  expiry_queue : List (Int × T)
deriving DecidableEq, Repr

namespace KeyValueStore

section Definitions

variable {T U : Type} [DecidableEq T] [LT T] [DecidableRel (fun a b : T => a < b)]

/-- The call `expiry_queue.push(e)`: insert `e` before the first pair that is
greater in the lexicographic order of `std::pair` (`std::greater<>` makes the
smallest pair the top). -/
def pushQueue : List (Int × T) → Int × T → List (Int × T)
  | [], e => [e]
  | x :: rest, e =>
    if e.1 < x.1 ∨ (e.1 = x.1 ∧ e.2 < x.2) then e :: x :: rest else x :: pushQueue rest e

/-- The store right after construction: both containers empty. -/
def empty : KeyValueStore T U :=
  { store := [], expiry_queue := [] }

/-- The member `put(key, value, ttl_in_seconds)`, the same text in both files, called
when the clock reads `now`. -/
def put (kv : KeyValueStore T U) (key : T) (value : U) (ttl_in_seconds : Int) (now : Int) :
    KeyValueStore T U :=
  let expiry_time := now + ttl_in_seconds
  { store := HybridCache.assign kv.store key { value := value, expiry := expiry_time }
    expiry_queue := pushQueue kv.expiry_queue (expiry_time, key) }

/-- The cleanup loop at the start of `get`, the same text in both files: while the
queue is not empty and its top has a time point `≤ now`, pop it and erase its key
from the table if the key is there with an expiry `≤ now`.  Returns the table and
the rest of the queue. -/
def cleanupLoop (now : Int) :
    List (Int × T) → List (T × ValueEntry U) → List (T × ValueEntry U) × List (Int × T)
  | [], store => (store, [])
  | (t, expired_key) :: rest, store =>
    if t ≤ now then
      match HybridCache.find store expired_key with
      | some e =>
        if e.expiry ≤ now then cleanupLoop now rest (HybridCache.eraseKey store expired_key)
        else cleanupLoop now rest store
      | none => cleanupLoop now rest store
    else (store, (t, expired_key) :: rest)

/-- The store after the cleanup loop of `get`. -/
def cleanup (kv : KeyValueStore T U) (now : Int) : KeyValueStore T U :=
  { store := (cleanupLoop now kv.expiry_queue kv.store).1
    expiry_queue := (cleanupLoop now kv.expiry_queue kv.store).2 }

/-- The member `get(key)` of `src/cache.h`, called when the clock reads `now`: after
the cleanup it returns the value of a key that is in the table with an expiry after
`now`, and `U()` otherwise.  The result is the returned value and the store
afterwards. -/
def getH [Inhabited U] (kv : KeyValueStore T U) (key : T) (now : Int) :
    U × KeyValueStore T U :=
  let kv' := cleanup kv now
  match HybridCache.find kv'.store key with
  | some e => if now < e.expiry then (e.value, kv') else (default, kv')
  | none => (default, kv')

/-- The member `get(key)` of `src/cache.cpp`, called when the clock reads `now`: after
the cleanup it returns the value of a key that is in the table, without a test of
its expiry, and `U()` otherwise. -/
def getCpp [Inhabited U] (kv : KeyValueStore T U) (key : T) (now : Int) :
    U × KeyValueStore T U :=
  let kv' := cleanup kv now
  match HybridCache.find kv'.store key with
  | some e => (e.value, kv')
  | none => (default, kv')

/-- One call on a store: `put` or `get`. -/
inductive Call (T U : Type) where
  | put (key : T) (value : U) (ttl_in_seconds : Int)
  | get (key : T)
deriving DecidableEq, Repr

/-- A sequence of calls on the class of `src/cache.h`, each with its clock reading:
the values returned by the `get` calls, in order, and the store afterwards. -/
def runH [Inhabited U] : KeyValueStore T U → List (Call T U × Int) → List U × KeyValueStore T U
  | kv, [] => ([], kv)
  | kv, (Call.put key value ttl, now) :: rest => runH (put kv key value ttl now) rest
  | kv, (Call.get key, now) :: rest =>
    ((getH kv key now).1 :: (runH (getH kv key now).2 rest).1, (runH (getH kv key now).2 rest).2)

/-- A sequence of calls on the class of `src/cache.cpp`, each with its clock reading:
the values returned by the `get` calls, in order, and the store afterwards. -/
def runCpp [Inhabited U] :
    KeyValueStore T U → List (Call T U × Int) → List U × KeyValueStore T U
  | kv, [] => ([], kv)
  | kv, (Call.put key value ttl, now) :: rest => runCpp (put kv key value ttl now) rest
  | kv, (Call.get key, now) :: rest =>
    ((getCpp kv key now).1 :: (runCpp (getCpp kv key now).2 rest).1,
      (runCpp (getCpp kv key now).2 rest).2)

/-- The invariant of the store: the queue is in ascending order of time point and
every entry of the table has its pair `(expiry, key)` in the queue. -/
def QueueOk (kv : KeyValueStore T U) : Prop :=
  kv.expiry_queue.Pairwise (fun a b => a.1 ≤ b.1) ∧
    ∀ k e, HybridCache.find kv.store k = some e → (e.expiry, k) ∈ kv.expiry_queue

/-- A sequence of calls with a `get` after the expiry of the key: `put(1, one, 3)` at
time 0, `get(1)` at time 2, `get(1)` at time 3, `put(1, uno, 0)` at time 4, `get(1)`
at time 4. -/
def sampleCalls : List (Call Nat String × Int) :=
  [(Call.put 1 "one" 3, 0), (Call.get 1, 2), (Call.get 1, 3), (Call.put 1 "uno" 0, 4),
    (Call.get 1, 4)]

end Definitions

end KeyValueStore

/-! ## The trie and the word segmentation, `src/trie.cpp`

A `std::string` is the list of its characters.  A node pointer is the node itself,
`nullptr` is `none`.  An access `children[index]` with an index outside `0 .. 25`
(a character that is not a lowercase letter `a` .. `z`) is undefined behaviour and
gives the result `none`. -/

/-- The struct `trie_node`: the flag `is_end_of_word` and the array `children[26]`. -/
inductive trie_node where
  | mk (is_end_of_word : Bool) (children : Fin 26 → Option trie_node)

namespace trie_node

/-- The member `is_end_of_word`. -/
def is_end_of_word : trie_node → Bool
  | mk b _ => b

/-- The member `children`. -/
def children : trie_node → Fin 26 → Option trie_node
  | mk _ c => c

/-- The constructor `trie_node()`: not the end of a word, all children null. -/
def new : trie_node :=
  mk false (fun _ => none)

end trie_node

/-- The class `Trie`: its member `root`. -/
structure Trie where
  root : trie_node

namespace Trie

/-- The index `ch - 'a'` into `children`, `none` when it is outside `0 .. 25`. -/
def index (ch : Char) : Option (Fin 26) :=
  if h : 97 ≤ ch.toNat ∧ ch.toNat < 123 then some ⟨ch.toNat - 97, by omega⟩ else none

/-- The constructor `Trie()`: the root is a new node. -/
def new : Trie :=
  { root := trie_node.new }

/-- The loop of `insert` from the node `current` over the rest of the word,
followed by `current->is_end_of_word = true`: the node `current` afterwards. -/
def insertLoop : List Char → trie_node → Option trie_node
  | [], current => some (trie_node.mk true current.children)
  | ch :: rest, current =>
    match index ch with
    | none => none
    | some i =>
      match insertLoop rest ((current.children i).getD trie_node.new) with
      | some child =>
        some (trie_node.mk current.is_end_of_word
          (fun j => if j = i then some child else current.children j))
      | none => none

/-- The member `insert(word)`. -/
def insert (t : Trie) (word : List Char) : Option Trie :=
  match insertLoop word t.root with
  | some root => some { root := root }
  | none => none

/-- The loop of `search` from the node `current` over the rest of the word, and the
final `return current->is_end_of_word`. -/
def searchLoop : List Char → trie_node → Option Bool
  | [], current => some current.is_end_of_word
  | ch :: rest, current =>
    match index ch with
    | none => none
    | some i =>
      match current.children i with
      | none => some current.is_end_of_word
      | some next => if next.is_end_of_word then some true else searchLoop rest next

/-- The member `search(word)`. -/
def search (t : Trie) (word : List Char) : Option Bool :=
  searchLoop word t.root

/-- The `for` loop of `wordBreak` from position `i` with the node `current`, over the
characters `rest` of the word from position `i` on; `recurse j` is the recursive call
`wordBreak(word, j, memo)`.  The stores `memo[start] = ...` before the two `return`
write to the by-value copy of `memo` that dies with the call, so they leave no
trace. -/
def wordBreakLoop (recurse : Nat → Option Bool) : List Char → trie_node → Nat → Option Bool
  | [], _, _ => some false
  | ch :: rest, current, i =>
    match index ch with
    | none => none
    | some idx =>
      match current.children idx with
      | none => some false
      | some next =>
        if next.is_end_of_word then
          match recurse (i + 1) with
          | some true => some true
          | some false => wordBreakLoop recurse rest next (i + 1)
          | none => none
        else wordBreakLoop recurse rest next (i + 1)

/-- The member `wordBreak(word, start, memo)`; `memo` is passed by value.  The first
argument bounds the depth of the recursion: `none` is returned when it is used up
(and for undefined behaviour). -/
def wordBreak (t : Trie) (word : List Char) :
    Nat → Nat → List (Nat × Bool) → Option Bool
  | 0, _, _ => none
  | fuel + 1, start, memo =>
    if start = word.length then some true
    else
      match HybridCache.find memo start with
      | some b => some b
      | none =>
        wordBreakLoop (fun j => wordBreak t word fuel j memo) (word.drop start) t.root start

/-- The member `canSegment(s)`: `wordBreak(s, 0, memo)` with an empty `memo`.  The
recursion of `wordBreak` goes to a greater `start` each time and stops at
`start = s.length()`, so a depth of `s.length() + 1` is enough. -/
def canSegment (t : Trie) (s : List Char) : Option Bool :=
  wordBreak t s (s.length + 1) 0 []

/-- The trie after `insert` of each word of a list, in order. -/
def insertAll : Trie → List (List Char) → Option Trie
  | t, [] => some t
  | t, w :: rest =>
    match insert t w with
    | some t' => insertAll t' rest
    | none => none

/-- The node reached from `current` along a word accepts the word: the walk finds
every child and ends at a node with `is_end_of_word`. -/
def accepts : List Char → trie_node → Bool
  | [], current => current.is_end_of_word
  | ch :: rest, current =>
    match index ch with
    | none => false
    | some i =>
      match current.children i with
      | none => false
      | some next => accepts rest next

/-- A word of lowercase letters `a` .. `z`. -/
def Lowercase (w : List Char) : Prop :=
  ∀ ch ∈ w, (index ch).isSome = true

instance (w : List Char) : Decidable (Lowercase w) :=
  List.decidableBAll _ w

/-- A string is segmentable over a dictionary when it is the concatenation of
zero or more words of the dictionary. -/
def Segmentable (dict : List (List Char)) (s : List Char) : Prop :=
  ∃ ws : List (List Char), (∀ w ∈ ws, w ∈ dict) ∧ ws.flatten = s

/-- The dictionary of the test driver `main`: `please`, `apple`, `ple`. -/
def driverDict : List (List Char) :=
  ["please".toList, "apple".toList, "ple".toList]

end Trie

namespace HybridCache

/-! ## The containers -/

section ContainerLemmas

variable {K V E : Type} [DecidableEq K]

theorem find_mem {s : List (K × E)} {k : K} {e : E} (h : find s k = some e) : (k, e) ∈ s := by
  induction s with
  | nil => simp [find] at h
  | cons p rest ih =>
    obtain ⟨k0, e0⟩ := p
    by_cases hk : k0 = k
    · simp [find, hk] at h
      simp [hk, h]
    · simp [find, hk] at h
      exact List.mem_cons_of_mem _ (ih h)

theorem find_eq_none_iff {s : List (K × E)} {k : K} :
    find s k = none ↔ k ∉ s.map Prod.fst := by
  induction s with
  | nil => simp [find]
  | cons p rest ih =>
    obtain ⟨k0, e0⟩ := p
    by_cases hk : k0 = k
    · simp [find, hk]
    · simp only [find, hk, if_false, ih, List.map_cons, List.mem_cons]
      constructor
      · intro h1 h2
        rcases h2 with h2 | h2
        · exact hk h2.symm
        · exact h1 h2
      · intro h1 h2
        exact h1 (Or.inr h2)

theorem find_of_mem {s : List (K × E)} {k : K} {e : E} (hs : (s.map Prod.fst).Nodup)
    (h : (k, e) ∈ s) : find s k = some e := by
  induction s with
  | nil => simp at h
  | cons p rest ih =>
    obtain ⟨k0, e0⟩ := p
    simp only [List.map_cons, List.nodup_cons] at hs
    rcases List.mem_cons.mp h with h | h
    · cases h
      simp [find]
    · have hne : k0 ≠ k := by
        rintro rfl
        exact hs.1 (List.mem_map.mpr ⟨(k0, e), h, rfl⟩)
      simp only [find, hne, if_false]
      exact ih hs.2 h

theorem find_isSome_iff {s : List (K × E)} {k : K} :
    (∃ e, find s k = some e) ↔ k ∈ s.map Prod.fst := by
  rw [← not_iff_not, ← find_eq_none_iff]
  cases find s k <;> simp

theorem find_eraseKey (s : List (K × E)) (k k' : K) :
    find (eraseKey s k) k' = if k' = k then none else find s k' := by
  induction s with
  | nil => simp [eraseKey, find]
  | cons p rest ih =>
    obtain ⟨k0, e0⟩ := p
    unfold eraseKey at ih ⊢
    by_cases hk : k0 = k
    · subst hk
      by_cases hk' : k' = k0
      · simp [List.filter_cons, find, hk'] at ih ⊢
        simpa [hk'] using ih
      · have : ¬ k0 = k' := fun h => hk' h.symm
        simp [List.filter_cons, find, hk', this] at ih ⊢
        simpa [hk'] using ih
    · by_cases hk' : k' = k
      · subst hk'
        simp [List.filter_cons, find, hk] at ih ⊢
        simpa using ih
      · simp only [List.filter_cons, hk, ne_eq, not_false_eq_true, decide_True, if_true, find, hk',
          if_false] at ih ⊢
        rw [ih]

theorem eraseKey_keys_nodup {s : List (K × E)} (k : K) (hs : (s.map Prod.fst).Nodup) :
    ((eraseKey s k).map Prod.fst).Nodup :=
  hs.sublist ((List.filter_sublist s).map Prod.fst)

theorem eraseKey_of_absent {s : List (K × E)} {k : K} (h : find s k = none) :
    eraseKey s k = s := by
  rw [find_eq_none_iff] at h
  unfold eraseKey
  rw [List.filter_eq_self]
  intro p hp
  have : p.1 ≠ k := by
    rintro rfl
    exact h (List.mem_map.mpr ⟨p, hp, rfl⟩)
  simpa using this

theorem length_eraseKey {s : List (K × E)} {k : K} {e : E} (hs : (s.map Prod.fst).Nodup)
    (h : find s k = some e) : (eraseKey s k).length + 1 = s.length := by
  induction s with
  | nil => simp [find] at h
  | cons p rest ih =>
    obtain ⟨k0, e0⟩ := p
    simp only [List.map_cons, List.nodup_cons] at hs
    by_cases hk : k0 = k
    · subst hk
      have hnone : find rest k0 = none := find_eq_none_iff.mpr hs.1
      have h2 := eraseKey_of_absent hnone
      have h3 : eraseKey ((k0, e0) :: rest) k0 = eraseKey rest k0 := by
        simp [eraseKey, List.filter_cons]
      rw [h3, h2]
      simp
    · simp only [find, hk, if_false] at h
      have h2 := ih hs.2 h
      have h3 : eraseKey ((k0, e0) :: rest) k = (k0, e0) :: eraseKey rest k := by
        simp [eraseKey, List.filter_cons, hk]
      rw [h3]
      simp [h2]

theorem find_append_single (s : List (K × E)) (k k' : K) (e : E) :
    find (s ++ [(k, e)]) k' =
      match find s k' with
      | some x => some x
      | none => if k = k' then some e else none := by
  induction s with
  | nil => simp [find]
  | cons p rest ih =>
    obtain ⟨k0, e0⟩ := p
    by_cases hk0 : k0 = k'
    · simp [find, hk0]
    · simp [find, hk0, ih]

theorem find_map_replace (s : List (K × E)) (k k' : K) (e : E) :
    find (s.map (fun p => if p.1 = k then (k, e) else p)) k' =
      if k' = k then (find s k).map (fun _ => e) else find s k' := by
  induction s with
  | nil => simp [find]
  | cons p rest ih =>
    obtain ⟨k0, e0⟩ := p
    simp only [List.map_cons]
    by_cases hk0 : k0 = k
    · subst hk0
      simp only [if_true]
      by_cases hk : k0 = k'
      · subst hk
        simp [find]
      · have hk2 : ¬ k' = k0 := fun h => hk h.symm
        simp only [find, hk, if_false, ih, hk2]
    · simp only [hk0, if_false]
      by_cases hk : k0 = k'
      · subst hk
        simp [find, hk0]
      · simp only [find, hk, hk0, if_false, ih]

theorem find_assign (s : List (K × E)) (k k' : K) (e : E) :
    find (assign s k e) k' = if k' = k then some e else find s k' := by
  unfold assign
  cases hf : find s k with
  | none =>
    simp only [find_append_single]
    by_cases hk : k' = k
    · subst hk
      simp [hf]
    · have hk2 : ¬ k = k' := fun h => hk h.symm
      simp only [hk, hk2, if_false]
      cases find s k' <;> rfl
  | some e1 =>
    simp only [find_map_replace, hf, Option.map_some']

theorem assign_keys_nodup {s : List (K × E)} (k : K) (e : E) (hs : (s.map Prod.fst).Nodup) :
    ((assign s k e).map Prod.fst).Nodup := by
  unfold assign
  cases hf : find s k with
  | none =>
    simp only [List.map_append, List.map_cons, List.map_nil]
    rw [List.nodup_append]
    refine ⟨hs, List.nodup_singleton _, ?_⟩
    intro a ha hb
    rw [List.mem_singleton] at hb
    subst hb
    exact (find_eq_none_iff.mp hf) ha
  | some e1 =>
    simp only [List.map_map]
    have : (Prod.fst ∘ fun p : K × E => if p.1 = k then (k, e) else p) = Prod.fst := by
      funext p
      by_cases hp : p.1 = k
      · simp [hp]
      · simp [hp]
    rw [this]
    exact hs

theorem length_assign_present {s : List (K × E)} {k : K} (e : E) {e1 : E}
    (h : find s k = some e1) : (assign s k e).length = s.length := by
  simp [assign, h]

theorem length_assign_absent {s : List (K × E)} {k : K} (e : E)
    (h : find s k = none) : (assign s k e).length = s.length + 1 := by
  simp [assign, h]

theorem mem_keys_iff_find {s : List (K × E)} {k : K} :
    k ∈ s.map Prod.fst ↔ find s k ≠ none := by
  rw [Ne, find_eq_none_iff, not_not]

end ContainerLemmas

section NodeLemmas

variable {K : Type}

theorem eraseNode_of_mem {l : List (Nat × K)} {it : Nat} {k : K} (h : (it, k) ∈ l) :
    eraseNode l it = some (l.filter (fun p => decide (p.1 ≠ it))) := by
  unfold eraseNode
  have : l.any (fun p => decide (p.1 = it)) = true := by
    rw [List.any_eq_true]
    exact ⟨(it, k), h, by simp⟩
  rw [if_pos this]

theorem eraseNode_some {l l' : List (Nat × K)} {it : Nat} (h : eraseNode l it = some l') :
    l' = l.filter (fun p => decide (p.1 ≠ it)) := by
  unfold eraseNode at h
  split at h
  · exact (Option.some.inj h).symm
  · exact absurd h (by simp)

end NodeLemmas

/-! ## The representation invariant -/

section LinkedLemmas

variable {K V : Type} [DecidableEq K]

theorem Linked.node_iff {s : List (K × CacheEntry V)} {l : List (Nat × K)} {next : Nat}
    (h : Linked s l next) {k : K} {e : CacheEntry V} (hf : find s k = some e)
    {p : Nat × K} (hp : p ∈ l) : p.1 = e.lruIt ↔ p.2 = k := by
  obtain ⟨n, k1⟩ := p
  constructor
  · intro hn
    simp only at hn
    subst hn
    have h1 := h.storeLinked k e hf
    have h2 : (e.lruIt, k1) = (e.lruIt, k) :=
      List.inj_on_of_nodup_map h.nodesNodup hp h1 rfl
    exact (Prod.mk.inj h2).2
  · intro hk
    simp only at hk
    subst hk
    obtain ⟨e1, he1, hn⟩ := h.lruLinked n k1 hp
    rw [hf] at he1
    cases he1
    exact hn.symm

theorem Linked.filter_eq {s : List (K × CacheEntry V)} {l : List (Nat × K)} {next : Nat}
    (h : Linked s l next) {k : K} {e : CacheEntry V} (hf : find s k = some e) :
    l.filter (fun p => decide (p.1 ≠ e.lruIt)) = l.filter (fun p => decide (p.2 ≠ k)) := by
  apply List.filter_congr
  intro p hp
  have := h.node_iff hf hp
  simp only [ne_eq, decide_not, this]

theorem Linked.eraseNode_eq {s : List (K × CacheEntry V)} {l : List (Nat × K)} {next : Nat}
    (h : Linked s l next) {k : K} {e : CacheEntry V} (hf : find s k = some e) :
    eraseNode l e.lruIt = some (l.filter (fun p => decide (p.2 ≠ k))) := by
  rw [eraseNode_of_mem (h.storeLinked k e hf), h.filter_eq hf]

theorem Linked.filter_absent {s : List (K × CacheEntry V)} {l : List (Nat × K)} {next : Nat}
    (h : Linked s l next) {k : K} (hf : find s k = none) :
    l.filter (fun p => decide (p.2 ≠ k)) = l := by
  rw [List.filter_eq_self]
  intro p hp
  obtain ⟨n, k1⟩ := p
  have : k1 ≠ k := by
    rintro rfl
    obtain ⟨e1, he1, _⟩ := h.lruLinked n k1 hp
    rw [hf] at he1
    cases he1
  simpa using this

theorem Linked.lruKeys_nodup {s : List (K × CacheEntry V)} {l : List (Nat × K)} {next : Nat}
    (h : Linked s l next) : (l.map Prod.snd).Nodup := by
  apply List.Nodup.map_on _ (List.Nodup.of_map _ h.nodesNodup)
  intro p hp q hq hpq
  obtain ⟨n1, k1⟩ := p
  obtain ⟨n2, k2⟩ := q
  simp only at hpq
  subst hpq
  obtain ⟨e1, he1, hn1⟩ := h.lruLinked n1 k1 hp
  obtain ⟨e2, he2, hn2⟩ := h.lruLinked n2 k1 hq
  rw [he1] at he2
  cases he2
  rw [← hn1, ← hn2]

theorem Linked.mem_lruKeys_iff {s : List (K × CacheEntry V)} {l : List (Nat × K)} {next : Nat}
    (h : Linked s l next) (k : K) : k ∈ l.map Prod.snd ↔ k ∈ s.map Prod.fst := by
  rw [← find_isSome_iff]
  constructor
  · intro hk
    obtain ⟨p, hp, rfl⟩ := List.mem_map.mp hk
    obtain ⟨e, he, _⟩ := h.lruLinked p.1 p.2 hp
    exact ⟨e, he⟩
  · rintro ⟨e, he⟩
    exact List.mem_map.mpr ⟨(e.lruIt, k), h.storeLinked k e he, rfl⟩

theorem Linked.erase {s : List (K × CacheEntry V)} {l : List (Nat × K)} {next : Nat}
    (h : Linked s l next) (k : K) :
    Linked (eraseKey s k) (l.filter (fun p => decide (p.2 ≠ k))) next where
  storeNodup := eraseKey_keys_nodup k h.storeNodup
  nodesNodup := h.nodesNodup.sublist ((List.filter_sublist l).map Prod.fst)
  nodesFresh := fun p hp => h.nodesFresh p (List.mem_of_mem_filter hp)
  storeLinked := by
    intro k1 e1 hf
    rw [find_eraseKey] at hf
    by_cases hk : k1 = k
    · simp [hk] at hf
    · simp only [hk, if_false] at hf
      rw [List.mem_filter]
      exact ⟨h.storeLinked k1 e1 hf, by simpa using hk⟩
  lruLinked := by
    intro n k1 hp
    rw [List.mem_filter] at hp
    have hk : k1 ≠ k := by simpa using hp.2
    obtain ⟨e1, he1, hn⟩ := h.lruLinked n k1 hp.1
    refine ⟨e1, ?_, hn⟩
    rw [find_eraseKey, if_neg hk, he1]

theorem Linked.touch {s : List (K × CacheEntry V)} {l : List (Nat × K)} {next : Nat}
    (h : Linked s l next) (k : K) {e : CacheEntry V} (he : e.lruIt = next) :
    Linked (assign s k e) (l.filter (fun p => decide (p.2 ≠ k)) ++ [(next, k)]) (next + 1) where
  storeNodup := assign_keys_nodup k e h.storeNodup
  nodesNodup := by
    simp only [List.map_append, List.map_cons, List.map_nil]
    rw [List.nodup_append]
    refine ⟨h.nodesNodup.sublist ((List.filter_sublist l).map Prod.fst),
      List.nodup_singleton _, ?_⟩
    intro a ha hb
    rw [List.mem_singleton] at hb
    subst hb
    obtain ⟨p, hp, rfl⟩ := List.mem_map.mp ha
    exact absurd (h.nodesFresh p (List.mem_of_mem_filter hp)) (lt_irrefl _)
  nodesFresh := by
    intro p hp
    rcases List.mem_append.mp hp with hp | hp
    · exact Nat.lt_succ_of_lt (h.nodesFresh p (List.mem_of_mem_filter hp))
    · rw [List.mem_singleton] at hp
      subst hp
      exact Nat.lt_succ_self _
  storeLinked := by
    intro k1 e1 hf
    rw [find_assign] at hf
    by_cases hk : k1 = k
    · subst hk
      simp only [if_true] at hf
      cases hf
      rw [he]
      exact List.mem_append_right _ (List.mem_singleton_self _)
    · simp only [hk, if_false] at hf
      apply List.mem_append_left
      rw [List.mem_filter]
      exact ⟨h.storeLinked k1 e1 hf, by simpa using hk⟩
  lruLinked := by
    intro n k1 hp
    rcases List.mem_append.mp hp with hp | hp
    · rw [List.mem_filter] at hp
      have hk : k1 ≠ k := by simpa using hp.2
      obtain ⟨e1, he1, hn⟩ := h.lruLinked n k1 hp.1
      refine ⟨e1, ?_, hn⟩
      rw [find_assign, if_neg hk, he1]
    · rw [List.mem_singleton] at hp
      cases hp
      exact ⟨e, by rw [find_assign, if_pos rfl], he⟩

theorem Linked.head_filter {s : List (K × CacheEntry V)} {n : Nat} {k : K}
    {rest : List (Nat × K)} {next : Nat} (h : Linked s ((n, k) :: rest) next) :
    ((n, k) :: rest).filter (fun p => decide (p.2 ≠ k)) = rest := by
  have hnd := h.lruKeys_nodup
  simp only [List.map_cons, List.nodup_cons] at hnd
  rw [List.filter_cons]
  simp only [ne_eq, not_true_eq_false, decide_False, Bool.false_eq_true, if_false]
  rw [List.filter_eq_self]
  intro p hp
  have : p.2 ≠ k := by
    rintro rfl
    exact hnd.1 (List.mem_map.mpr ⟨p, hp, rfl⟩)
  simpa using this

theorem Linked.nil (next : Nat) : Linked ([] : List (K × CacheEntry V)) [] next where
  storeNodup := List.nodup_nil
  nodesNodup := List.nodup_nil
  nodesFresh := fun p hp => absurd hp (List.not_mem_nil p)
  storeLinked := fun k e hf => by simp [find] at hf
  lruLinked := fun n k hp => absurd hp (List.not_mem_nil _)

end LinkedLemmas

/-! ## The operations keep the invariant and never reach undefined behaviour -/

section StepLemmas

variable {K V : Type} [DecidableEq K]

theorem wellFormed_new (cap : Nat) : WellFormed (new cap : HybridCache K V) :=
  Linked.nil 0

theorem Linked.lru_ne_nil {s : List (K × CacheEntry V)} {l : List (Nat × K)} {next : Nat}
    (h : Linked s l next) (hs : 0 < s.length) : l ≠ [] := by
  cases s with
  | nil => simp at hs
  | cons p rest =>
    obtain ⟨k, e⟩ := p
    have hf : find ((k, e) :: rest) k = some e := by simp [find]
    exact List.ne_nil_of_mem (h.storeLinked k e hf)

theorem putMakeRoom_present {c : HybridCache K V} (h : WellFormed c) {k : K} {e : CacheEntry V}
    (hf : find c.store k = some e) :
    putMakeRoom c k = some (c.store, c.lruList.filter (fun p => decide (p.2 ≠ k))) := by
  unfold putMakeRoom
  rw [hf]
  simp only [Linked.eraseNode_eq h hf]

theorem putMakeRoom_room {c : HybridCache K V} {k : K} (hf : find c.store k = none)
    (hroom : ¬ c.capacity ≤ c.store.length) :
    putMakeRoom c k = some (c.store, c.lruList) := by
  unfold putMakeRoom
  rw [hf]
  simp only [hroom, if_false]

theorem putMakeRoom_full {c : HybridCache K V} (h : WellFormed c) {k : K}
    (hf : find c.store k = none) (hfull : c.capacity ≤ c.store.length) (hcap : 1 ≤ c.capacity) :
    ∃ n lruKey rest, c.lruList = (n, lruKey) :: rest ∧
      putMakeRoom c k = some (eraseKey c.store lruKey, rest) := by
  have hne : c.lruList ≠ [] := Linked.lru_ne_nil h (by omega)
  unfold putMakeRoom
  rw [hf]
  simp only [hfull, if_true]
  cases hl : c.lruList with
  | nil => exact absurd hl hne
  | cons p rest =>
    obtain ⟨n, lruKey⟩ := p
    exact ⟨n, lruKey, rest, rfl, rfl⟩

theorem put_present {c : HybridCache K V} (h : WellFormed c) {k : K} {e : CacheEntry V}
    (hf : find c.store k = some e) (v : V) (ttl now : Int) :
    put c k v ttl now = some
      { store := assign c.store k { value := v, expiry := now + ttl, lruIt := c.nextNode }
        lruList := c.lruList.filter (fun p => decide (p.2 ≠ k)) ++ [(c.nextNode, k)]
        nextNode := c.nextNode + 1
        expiryQueue := pushExpiry c.expiryQueue (now + ttl, k)
        capacity := c.capacity } := by
  simp only [put, putMakeRoom_present h hf]

theorem put_room {c : HybridCache K V} {k : K} (hf : find c.store k = none)
    (hroom : ¬ c.capacity ≤ c.store.length) (v : V) (ttl now : Int) :
    put c k v ttl now = some
      { store := assign c.store k { value := v, expiry := now + ttl, lruIt := c.nextNode }
        lruList := c.lruList ++ [(c.nextNode, k)]
        nextNode := c.nextNode + 1
        expiryQueue := pushExpiry c.expiryQueue (now + ttl, k)
        capacity := c.capacity } := by
  simp only [put, putMakeRoom_room hf hroom]

theorem put_full {c : HybridCache K V} (h : WellFormed c) {k : K}
    (hf : find c.store k = none) (hfull : c.capacity ≤ c.store.length) (hcap : 1 ≤ c.capacity)
    (v : V) (ttl now : Int) :
    ∃ n lruKey rest, c.lruList = (n, lruKey) :: rest ∧
      put c k v ttl now = some
        { store := assign (eraseKey c.store lruKey) k
            { value := v, expiry := now + ttl, lruIt := c.nextNode }
          lruList := rest ++ [(c.nextNode, k)]
          nextNode := c.nextNode + 1
          expiryQueue := pushExpiry c.expiryQueue (now + ttl, k)
          capacity := c.capacity } := by
  obtain ⟨n, lruKey, rest, hl, hroom⟩ := putMakeRoom_full h hf hfull hcap
  exact ⟨n, lruKey, rest, hl, by simp only [put, hroom]⟩

theorem get_live {c : HybridCache K V} (h : WellFormed c) {k : K} {e : CacheEntry V}
    (hf : find c.store k = some e) {now : Int} (hlive : now < e.expiry) :
    get c k now = some (some e.value,
      { store := assign c.store k { value := e.value, expiry := e.expiry, lruIt := c.nextNode }
        lruList := c.lruList.filter (fun p => decide (p.2 ≠ k)) ++ [(c.nextNode, k)]
        nextNode := c.nextNode + 1
        expiryQueue := c.expiryQueue
        capacity := c.capacity }) := by
  have hexp : ¬ e.expiry ≤ now := not_le.mpr hlive
  simp only [get, hf, hexp, if_false, Linked.eraseNode_eq h hf]

theorem get_absent {c : HybridCache K V} {k : K} (hf : find c.store k = none) (now : Int) :
    get c k now = some (none, c) := by
  simp only [get, hf]

theorem get_expired {c : HybridCache K V} {k : K} {e : CacheEntry V}
    (hf : find c.store k = some e) {now : Int} (hexp : e.expiry ≤ now) :
    get c k now = some (none, c) := by
  simp only [get, hf, hexp, if_true]

theorem remove_present {c : HybridCache K V} (h : WellFormed c) {k : K} {e : CacheEntry V}
    (hf : find c.store k = some e) :
    remove c k = some (true,
      { store := eraseKey c.store k
        lruList := c.lruList.filter (fun p => decide (p.2 ≠ k))
        nextNode := c.nextNode
        expiryQueue := c.expiryQueue
        capacity := c.capacity }) := by
  simp only [remove, hf, Linked.eraseNode_eq h hf]

theorem remove_absent {c : HybridCache K V} {k : K} (hf : find c.store k = none) :
    remove c k = some (false, c) := by
  simp only [remove, hf]

theorem put_inv {c : HybridCache K V} (h : WellFormed c) (hcap : 1 ≤ c.capacity)
    (hsize : size c ≤ c.capacity) (k : K) (v : V) (ttl now : Int) :
    ∃ c', put c k v ttl now = some c' ∧ WellFormed c' ∧ c'.capacity = c.capacity ∧
      size c' ≤ c'.capacity := by
  unfold size at hsize
  cases hf : find c.store k with
  | some e =>
    refine ⟨_, put_present h hf v ttl now, ?_, rfl, ?_⟩
    · exact Linked.touch h k rfl
    · simp only [size, length_assign_present _ hf]
      exact hsize
  | none =>
    by_cases hfull : c.capacity ≤ c.store.length
    · obtain ⟨n, lruKey, rest, hl, hput⟩ := put_full h hf hfull hcap v ttl now
      have hne : find (eraseKey c.store lruKey) k = none := by
        rw [find_eraseKey, hf]
        simp
      refine ⟨_, hput, ?_, rfl, ?_⟩
      · have h1 : Linked (eraseKey c.store lruKey) rest c.nextNode := by
          have h2 := Linked.erase h lruKey
          have h3 : Linked c.store ((n, lruKey) :: rest) c.nextNode := hl ▸ h
          rw [hl, Linked.head_filter h3] at h2
          exact h2
        have h4 := Linked.touch h1 k
          (e := { value := v, expiry := now + ttl, lruIt := c.nextNode }) rfl
        rw [Linked.filter_absent h1 hne] at h4
        exact h4
      · have hmem : (n, lruKey) ∈ c.lruList := by
          rw [hl]
          exact List.mem_cons_self _ _
        obtain ⟨e1, he1, _⟩ := h.lruLinked n lruKey hmem
        have hlen := length_eraseKey h.storeNodup he1
        simp only [size, length_assign_absent _ hne]
        omega
    · refine ⟨_, put_room hf hfull v ttl now, ?_, rfl, ?_⟩
      · have h4 := Linked.touch h k
          (e := { value := v, expiry := now + ttl, lruIt := c.nextNode }) rfl
        rw [Linked.filter_absent h hf] at h4
        exact h4
      · simp only [size, length_assign_absent _ hf]
        omega

theorem get_inv {c : HybridCache K V} (h : WellFormed c) (k : K) (now : Int) :
    ∃ r c', get c k now = some (r, c') ∧ WellFormed c' ∧ c'.capacity = c.capacity ∧
      size c' = size c := by
  cases hf : find c.store k with
  | none => exact ⟨none, c, get_absent hf now, h, rfl, rfl⟩
  | some e =>
    by_cases hexp : e.expiry ≤ now
    · exact ⟨none, c, get_expired hf hexp, h, rfl, rfl⟩
    · refine ⟨some e.value, _, get_live h hf (not_le.mp hexp), ?_, rfl, ?_⟩
      · exact Linked.touch h k rfl
      · simp only [size, length_assign_present _ hf]

theorem remove_inv {c : HybridCache K V} (h : WellFormed c) (k : K) :
    ∃ b c', remove c k = some (b, c') ∧ WellFormed c' ∧ c'.capacity = c.capacity ∧
      size c' ≤ size c := by
  cases hf : find c.store k with
  | none => exact ⟨false, c, remove_absent hf, h, rfl, le_refl _⟩
  | some e =>
    refine ⟨true, _, remove_present h hf, ?_, rfl, ?_⟩
    · exact Linked.erase h k
    · have := length_eraseKey h.storeNodup hf
      simp only [size]
      omega

theorem cleanupLoop_inv (now : Int) (q : List (Int × K)) :
    ∀ (s : List (K × CacheEntry V)) (l : List (Nat × K)) (next : Nat), Linked s l next →
      ∃ s' l' q', cleanupLoop now q s l = some (s', l', q') ∧ Linked s' l' next ∧
        s'.length ≤ s.length := by
  induction q with
  | nil =>
    intro s l next h
    exact ⟨s, l, [], rfl, h, le_refl _⟩
  | cons p rest ih =>
    intro s l next h
    obtain ⟨t, k⟩ := p
    by_cases ht : t ≤ now
    · cases hf : find s k with
      | none =>
        obtain ⟨s', l', q', h1, h2, h3⟩ := ih s l next h
        exact ⟨s', l', q', by simp only [cleanupLoop, ht, if_true, hf, h1], h2, h3⟩
      | some e =>
        by_cases hexp : e.expiry ≤ now
        · obtain ⟨s', l', q', h1, h2, h3⟩ := ih _ _ next (Linked.erase h k)
          refine ⟨s', l', q', ?_, h2, ?_⟩
          · simp only [cleanupLoop, ht, if_true, hf, hexp, Linked.eraseNode_eq h hf, h1]
          · have := length_eraseKey h.storeNodup hf
            omega
        · obtain ⟨s', l', q', h1, h2, h3⟩ := ih s l next h
          exact ⟨s', l', q', by simp only [cleanupLoop, ht, if_true, hf, hexp, if_false, h1],
            h2, h3⟩
    · exact ⟨s, l, (t, k) :: rest, by simp only [cleanupLoop, ht, if_false], h, le_refl _⟩

theorem cleanupExpired_inv {c : HybridCache K V} (h : WellFormed c) (now : Int) :
    ∃ c', cleanupExpired c now = some c' ∧ WellFormed c' ∧ c'.capacity = c.capacity ∧
      size c' ≤ size c := by
  obtain ⟨s', l', q', h1, h2, h3⟩ := cleanupLoop_inv now c.expiryQueue c.store c.lruList _ h
  have h4 : cleanupExpired c now =
      some { c with store := s', lruList := l', expiryQueue := q' } := by
    simp only [cleanupExpired, h1]
  exact ⟨_, h4, h2, rfl, h3⟩

theorem step_inv {c : HybridCache K V} (h : WellFormed c) (hcap : 1 ≤ c.capacity)
    (hsize : size c ≤ c.capacity) (op : Op K V) (now : Int) :
    ∃ c', step c op now = some c' ∧ WellFormed c' ∧ c'.capacity = c.capacity ∧
      size c' ≤ c'.capacity := by
  cases op with
  | put key value ttlSeconds => exact put_inv h hcap hsize key value ttlSeconds now
  | get key =>
    obtain ⟨r, c', h1, h2, h3, h4⟩ := get_inv h key now
    exact ⟨c', by simp only [step, h1, Option.map_some'], h2, h3, by omega⟩
  | existsKey key =>
    refine ⟨c, ?_, h, rfl, hsize⟩
    simp only [step, existsKey]
    cases find c.store key <;> rfl
  | remove key =>
    obtain ⟨b, c', h1, h2, h3, h4⟩ := remove_inv h key
    exact ⟨c', by simp only [step, h1, Option.map_some'], h2, h3, by omega⟩
  | size => exact ⟨c, rfl, h, rfl, hsize⟩
  | cleanupExpired =>
    obtain ⟨c', h1, h2, h3, h4⟩ := cleanupExpired_inv h now
    exact ⟨c', h1, h2, h3, by omega⟩

theorem runOps_inv (ops : List (Op K V × Int)) :
    ∀ c : HybridCache K V, WellFormed c → 1 ≤ c.capacity → size c ≤ c.capacity →
      ∃ c', runOps c ops = some c' ∧ WellFormed c' ∧ c'.capacity = c.capacity ∧
        size c' ≤ c'.capacity := by
  induction ops with
  | nil =>
    intro c h _ hsize
    exact ⟨c, rfl, h, rfl, hsize⟩
  | cons p rest ih =>
    intro c h hcap hsize
    obtain ⟨op, now⟩ := p
    obtain ⟨c1, h1, h2, h3, h4⟩ := step_inv h hcap hsize op now
    obtain ⟨c2, g1, g2, g3, g4⟩ := ih c1 h2 (by omega) h4
    exact ⟨c2, by simp only [runOps, h1, g1], g2, by omega, g4⟩

theorem runOps_new (cap : Nat) (hcap : 1 ≤ cap) (ops : List (Op K V × Int)) :
    ∃ c : HybridCache K V, runOps (new cap) ops = some c ∧ WellFormed c ∧ c.capacity = cap ∧
      size c ≤ cap := by
  obtain ⟨c, h1, h2, h3, h4⟩ :=
    runOps_inv ops (new cap : HybridCache K V) (wellFormed_new cap) hcap (Nat.zero_le _)
  exact ⟨c, h1, h2, h3, by rw [h3] at h4; exact h4⟩

theorem Reachable.inv {c : HybridCache K V} (h : Reachable c) :
    WellFormed c ∧ 1 ≤ c.capacity ∧ size c ≤ c.capacity := by
  obtain ⟨cap, ops, hcap, hrun⟩ := h
  obtain ⟨c1, h1, h2, h3, h4⟩ := runOps_new (K := K) (V := V) cap hcap ops
  rw [hrun] at h1
  cases h1
  exact ⟨h2, by omega, by omega⟩

theorem put_evict_spec {c : HybridCache K V} (hwf : WellFormed c) (hcap : 1 ≤ c.capacity) {k : K}
    (hfull : c.capacity ≤ size c) (habs : find c.store k = none) (v : V) (ttl now : Int) :
    ∃ n lruKey rest c', c.lruList = (n, lruKey) :: rest ∧ put c k v ttl now = some c' ∧
      find c.store lruKey ≠ none ∧ lruKey ≠ k ∧
      find c'.store lruKey = none ∧ lruKey ∉ lruKeys c' ∧
      (∀ k', k' ≠ lruKey → k' ≠ k → find c'.store k' = find c.store k') ∧
      find c'.store k = some { value := v, expiry := now + ttl, lruIt := c.nextNode } ∧
      lruKeys c' = rest.map Prod.snd ++ [k] ∧ size c' = size c := by
  obtain ⟨n, lruKey, rest, hl, hput⟩ := put_full hwf habs hfull hcap v ttl now
  have hmem : (n, lruKey) ∈ c.lruList := by
    rw [hl]
    exact List.mem_cons_self _ _
  obtain ⟨e1, he1, _⟩ := hwf.lruLinked n lruKey hmem
  have hne : lruKey ≠ k := by
    rintro rfl
    rw [habs] at he1
    cases he1
  have hnd := Linked.lruKeys_nodup hwf
  rw [hl] at hnd
  simp only [List.map_cons, List.nodup_cons] at hnd
  have hnone : find (eraseKey c.store lruKey) k = none := by
    rw [find_eraseKey, habs]
    simp
  refine ⟨n, lruKey, rest, _, hl, hput, ?_, hne, ?_, ?_, ?_, ?_, ?_, ?_⟩
  · rw [he1]
    simp
  · simp only [find_assign, if_neg hne, find_eraseKey, if_true]
  · simp only [lruKeys, List.map_append, List.map_cons, List.map_nil, List.mem_append,
      List.mem_singleton, not_or]
    exact ⟨hnd.1, hne⟩
  · intro k' h1 h2
    simp only [find_assign, if_neg h2, find_eraseKey, if_neg h1]
  · simp only [find_assign, if_true]
  · simp only [lruKeys, List.map_append, List.map_cons, List.map_nil]
  · have hlen := length_eraseKey hwf.storeNodup he1
    simp only [size, length_assign_absent _ hnone]
    exact hlen

theorem Linked.length_eq {s : List (K × CacheEntry V)} {l : List (Nat × K)} {next : Nat}
    (h : Linked s l next) : l.length = s.length := by
  have hperm : (l.map Prod.snd).Perm (s.map Prod.fst) :=
    (List.perm_ext_iff_of_nodup h.lruKeys_nodup h.storeNodup).mpr h.mem_lruKeys_iff
  simpa using hperm.length_eq

theorem lruKeys_touch (l : List (Nat × K)) (next : Nat) (k : K) :
    (l.filter (fun p => decide (p.2 ≠ k)) ++ [(next, k)]).map Prod.snd =
      (l.map Prod.snd).filter (fun x => decide (x ≠ k)) ++ [k] := by
  simp only [List.map_append, List.map_cons, List.map_nil, List.filter_map]
  rfl

theorem get_promote_spec {c : HybridCache K V} (hwf : WellFormed c) (hcap : 1 ≤ c.capacity) {k : K}
    {e : CacheEntry V} (hf : find c.store k = some e) {now : Int} (hlive : now < e.expiry) :
    ∃ c', get c k now = some (some e.value, c') ∧
      lruKeys c' = (lruKeys c).filter (fun x => decide (x ≠ k)) ++ [k] ∧
      (∀ k', (find c'.store k').map entryData = (find c.store k').map entryData) ∧
      c'.expiryQueue = c.expiryQueue ∧ size c' = size c ∧ c'.capacity = c.capacity ∧
      (2 ≤ size c' → size c' = c'.capacity →
        ∀ (k2 : K) (v2 : V) (ttl2 now2 : Int), find c'.store k2 = none →
          ∃ victim c'', put c' k2 v2 ttl2 now2 = some c'' ∧ (lruKeys c').head? = some victim ∧
            victim ≠ k ∧ find c'.store victim ≠ none ∧ find c''.store victim = none ∧
            (find c''.store k).map entryData = some (e.value, e.expiry)) := by
  have hwf' : Linked (assign c.store k { value := e.value, expiry := e.expiry, lruIt := c.nextNode })
      (c.lruList.filter (fun p => decide (p.2 ≠ k)) ++ [(c.nextNode, k)]) (c.nextNode + 1) :=
    Linked.touch hwf k rfl
  refine ⟨_, get_live hwf hf hlive, ?_, ?_, rfl, ?_, rfl, ?_⟩
  · exact lruKeys_touch c.lruList c.nextNode k
  · intro k'
    by_cases hk : k' = k
    · subst hk
      simp only [find_assign, if_true, hf, Option.map_some', entryData]
    · simp only [find_assign, if_neg hk]
  · simp only [size, length_assign_present _ hf]
  · intro h2 hfull k2 v2 ttl2 now2 habs
    obtain ⟨n, victim, rest, c'', hl, hput, hpres, hne2, hgone, _, hkeep, _, _, _⟩ :=
      put_evict_spec
        (c := ⟨assign c.store k { value := e.value, expiry := e.expiry, lruIt := c.nextNode },
          c.lruList.filter (fun p => decide (p.2 ≠ k)) ++ [(c.nextNode, k)],
          c.nextNode + 1, c.expiryQueue, c.capacity⟩)
        hwf' hcap (by rw [hfull]) habs v2 ttl2 now2
    simp only at hl hpres hkeep
    have hlen := Linked.length_eq hwf'
    simp only [size] at h2
    have hvk : victim ≠ k := by
      cases hF : c.lruList.filter (fun p => decide (p.2 ≠ k)) with
      | nil =>
        rw [hF] at hlen
        simp only [List.nil_append, List.length_singleton] at hlen
        omega
      | cons y ys =>
        rw [hF] at hl
        simp only [List.cons_append, List.cons.injEq] at hl
        have hy : y ∈ c.lruList.filter (fun p => decide (p.2 ≠ k)) := by
          rw [hF]
          exact List.mem_cons_self _ _
        rw [List.mem_filter] at hy
        have hy2 : y.2 ≠ k := by simpa using hy.2
        rw [hl.1] at hy2
        exact hy2
    have hk2 : k ≠ k2 := by
      rintro rfl
      rw [find_assign, if_pos rfl] at habs
      cases habs
    refine ⟨victim, c'', hput, ?_, hvk, hpres, hgone, ?_⟩
    · simp only [lruKeys, hl, List.map_cons, List.head?_cons]
    · rw [hkeep k (Ne.symm hvk) hk2]
      simp only [find_assign, if_true, Option.map_some', entryData]

theorem put_find_self {c c' : HybridCache K V} {k : K} {v : V} {ttl now : Int}
    (h : put c k v ttl now = some c') :
    find c'.store k = some { value := v, expiry := now + ttl, lruIt := c.nextNode } := by
  unfold put at h
  cases hroom : putMakeRoom c k with
  | none => simp [hroom] at h
  | some sl =>
    obtain ⟨s0, l0⟩ := sl
    simp only [hroom, Option.some.injEq] at h
    subst h
    simp only [find_assign, if_true]

theorem existsKey_eq (c : HybridCache K V) (k : K) (now : Int) :
    existsKey c k now =
      (decide (∃ e, find c.store k = some e ∧ now < e.expiry), c) := by
  unfold existsKey
  cases hf : find c.store k with
  | none => simp
  | some e => simp

theorem ttl_spec {c : HybridCache K V} (hwf : WellFormed c) (hcap : 1 ≤ c.capacity)
    (hsize : size c ≤ c.capacity) (k : K) (v : V) (t t0 : Int) :
    ∃ c', put c k v t t0 = some c' ∧
      ∀ q : Int, ((existsKey c' k q).1 = true ↔ q < t0 + t) ∧
        (q < t0 + t → ∃ c'', get c' k q = some (some v, c'')) ∧
        (t0 + t ≤ q → get c' k q = some (none, c')) := by
  obtain ⟨c', hput, hwf', _, _⟩ := put_inv hwf hcap hsize k v t t0
  have hf := put_find_self hput
  refine ⟨c', hput, fun q => ⟨?_, ?_, ?_⟩⟩
  · simp only [existsKey_eq, hf, Option.some.injEq, decide_eq_true_eq]
    constructor
    · rintro ⟨e, rfl, he⟩
      exact he
    · intro hq
      exact ⟨_, rfl, hq⟩
  · intro hq
    exact ⟨_, get_live hwf' hf hq⟩
  · intro hq
    exact get_expired hf hq

theorem cleanupLoop_find (now : Int) (q : List (Int × K)) :
    ∀ (s s' : List (K × CacheEntry V)) (l l' : List (Nat × K)) (q' : List (Int × K)),
      cleanupLoop now q s l = some (s', l', q') →
      ∀ k, find s' k = find s k ∨
        (find s' k = none ∧ ∃ e, find s k = some e ∧ e.expiry ≤ now) := by
  induction q with
  | nil =>
    intro s s' l l' q' h k
    simp only [cleanupLoop, Option.some.injEq, Prod.mk.injEq] at h
    rw [h.1]
    exact Or.inl rfl
  | cons p rest ih =>
    intro s s' l l' q' h k
    obtain ⟨t, key⟩ := p
    by_cases ht : t ≤ now
    · cases hf : find s key with
      | none =>
        simp only [cleanupLoop, ht, if_true, hf] at h
        exact ih s s' l l' q' h k
      | some e =>
        by_cases hexp : e.expiry ≤ now
        · cases hn : eraseNode l e.lruIt with
          | none => simp [cleanupLoop, ht, hf, hexp, hn] at h
          | some lru' =>
            simp only [cleanupLoop, ht, if_true, hf, hexp, hn] at h
            have h1 := ih _ s' _ l' q' h k
            rw [find_eraseKey] at h1
            by_cases hk : k = key
            · subst hk
              simp only [if_true] at h1
              right
              refine ⟨?_, e, hf, hexp⟩
              rcases h1 with h1 | h1
              · exact h1
              · exact h1.1
            · simp only [hk, if_false] at h1
              exact h1
        · simp only [cleanupLoop, ht, if_true, hf, hexp, if_false] at h
          exact ih s s' l l' q' h k
    · simp only [cleanupLoop, ht, if_false, Option.some.injEq, Prod.mk.injEq] at h
      rw [h.1]
      exact Or.inl rfl

theorem step_absent {c c' : HybridCache K V} {op : Op K V} {now : Int} {k : K}
    (h : step c op now = some c') (hop : ∀ v ttl, op ≠ Op.put k v ttl)
    (habs : find c.store k = none) : find c'.store k = none := by
  cases op with
  | put key value ttlSeconds =>
    have hk : k ≠ key := by
      rintro rfl
      exact hop value ttlSeconds rfl
    simp only [step, put] at h
    cases hroom : putMakeRoom c key with
    | none => simp [hroom] at h
    | some sl =>
      obtain ⟨s0, l0⟩ := sl
      simp only [hroom, Option.some.injEq] at h
      subst h
      simp only [find_assign, if_neg hk]
      unfold putMakeRoom at hroom
      cases hf : find c.store key with
      | some e =>
        cases hn : eraseNode c.lruList e.lruIt with
        | none => simp [hf, hn] at hroom
        | some lru =>
          simp only [hf, hn, Option.some.injEq, Prod.mk.injEq] at hroom
          rw [← hroom.1]
          exact habs
      | none =>
        by_cases hfull : c.capacity ≤ c.store.length
        · cases hl : c.lruList with
          | nil => simp [hf, hfull, hl] at hroom
          | cons p rest =>
            simp only [hf, hfull, if_true, hl, Option.some.injEq, Prod.mk.injEq] at hroom
            rw [← hroom.1, find_eraseKey, habs]
            simp
        · simp only [hf, hfull, if_false, Option.some.injEq, Prod.mk.injEq] at hroom
          rw [← hroom.1]
          exact habs
  | get key =>
    simp only [step, get] at h
    cases hf : find c.store key with
    | none =>
      simp only [hf, Option.map_some', Option.some.injEq] at h
      rw [← h]
      exact habs
    | some e =>
      by_cases hexp : e.expiry ≤ now
      · simp only [hf, hexp, if_true, Option.map_some', Option.some.injEq] at h
        rw [← h]
        exact habs
      · cases hn : eraseNode c.lruList e.lruIt with
        | none => simp [hf, hexp, hn] at h
        | some lru =>
          simp only [hf, hexp, if_false, hn, Option.map_some', Option.some.injEq] at h
          subst h
          have hk : k ≠ key := by
            rintro rfl
            rw [habs] at hf
            cases hf
          simp only [find_assign, if_neg hk]
          exact habs
  | existsKey key =>
    simp only [step, existsKey_eq, Option.some.injEq] at h
    rw [← h]
    exact habs
  | remove key =>
    simp only [step, remove] at h
    cases hf : find c.store key with
    | none =>
      simp only [hf, Option.map_some', Option.some.injEq] at h
      rw [← h]
      exact habs
    | some e =>
      cases hn : eraseNode c.lruList e.lruIt with
      | none => simp [hf, hn] at h
      | some lru =>
        simp only [hf, hn, Option.map_some', Option.some.injEq] at h
        subst h
        simp only [find_eraseKey, habs]
        simp
  | size =>
    simp only [step, Option.some.injEq] at h
    rw [← h]
    exact habs
  | cleanupExpired =>
    simp only [step, cleanupExpired] at h
    cases hloop : cleanupLoop now c.expiryQueue c.store c.lruList with
    | none => simp [hloop] at h
    | some r =>
      obtain ⟨s', l', q'⟩ := r
      simp only [hloop, Option.some.injEq] at h
      subst h
      rcases cleanupLoop_find now _ _ _ _ _ _ hloop k with h1 | h1
      · simp only [h1]
        exact habs
      · exact h1.1

theorem runOps_absent (ops : List (Op K V × Int)) (k : K) :
    ∀ c : HybridCache K V, WellFormed c → 1 ≤ c.capacity → size c ≤ c.capacity →
      find c.store k = none → (∀ p ∈ ops, ∀ v ttl, p.1 ≠ Op.put k v ttl) →
      ∃ c', runOps c ops = some c' ∧ find c'.store k = none := by
  induction ops with
  | nil =>
    intro c _ _ _ habs _
    exact ⟨c, rfl, habs⟩
  | cons p rest ih =>
    intro c h hcap hsize habs hops
    obtain ⟨op, now⟩ := p
    obtain ⟨c1, h1, h2, h3, h4⟩ := step_inv h hcap hsize op now
    have habs1 := step_absent h1 (hops (op, now) (List.mem_cons_self _ _)) habs
    obtain ⟨c2, g1, g2⟩ := ih c1 h2 (by omega) h4 habs1
      (fun p hp => hops p (List.mem_cons_of_mem _ hp))
    exact ⟨c2, by simp only [runOps, h1, g1], g2⟩

theorem remove_idem_spec {c : HybridCache K V} (hwf : WellFormed c) (hcap : 1 ≤ c.capacity)
    (hsize : size c ≤ c.capacity) (k : K) :
    ∃ b c', remove c k = some (b, c') ∧ (b = true ↔ find c.store k ≠ none) ∧
      remove c' k = some (false, c') ∧
      (∀ ops : List (Op K V × Int), (∀ p ∈ ops, ∀ v ttl, p.1 ≠ Op.put k v ttl) →
        ∃ c'', runOps c' ops = some c'' ∧ remove c'' k = some (false, c'')) := by
  obtain ⟨b, c', hrem, hwf', hcap', hsize'⟩ := remove_inv hwf k
  have habs : find c'.store k = none := by
    cases hf : find c.store k with
    | none =>
      rw [remove_absent hf] at hrem
      cases hrem
      exact hf
    | some e =>
      rw [remove_present hwf hf] at hrem
      cases hrem
      simp only [find_eraseKey, if_true]
  refine ⟨b, c', hrem, ?_, remove_absent habs, ?_⟩
  · cases hf : find c.store k with
    | none =>
      rw [remove_absent hf] at hrem
      cases hrem
      simp
    | some e =>
      rw [remove_present hwf hf] at hrem
      cases hrem
      simp
  · intro ops hops
    obtain ⟨c'', h1, h2⟩ := runOps_absent ops k c' hwf' (by omega) (by omega) habs hops
    exact ⟨c'', h1, remove_absent h2⟩

theorem put_remove_twice {c : HybridCache K V} (hwf : WellFormed c) (hcap : 1 ≤ c.capacity)
    (hsize : size c ≤ c.capacity) (k : K) (v : V) (ttl now : Int) :
    ∃ c1 c2, put c k v ttl now = some c1 ∧ remove c1 k = some (true, c2) ∧
      remove c2 k = some (false, c2) := by
  obtain ⟨c1, hput, hwf1, _, _⟩ := put_inv hwf hcap hsize k v ttl now
  have hf := put_find_self hput
  refine ⟨c1, _, hput, remove_present hwf1 hf, ?_⟩
  apply remove_absent
  simp only [find_eraseKey, if_true]

theorem remove_present_spec {c : HybridCache K V} (hwf : WellFormed c) {k : K} {e : CacheEntry V}
    (hf : find c.store k = some e) :
    ∃ c', remove c k = some (true, c') ∧ find c'.store k = none ∧ k ∉ lruKeys c' ∧
      (∀ k', k' ≠ k → find c'.store k' = find c.store k') ∧
      lruKeys c' = (lruKeys c).filter (fun x => decide (x ≠ k)) ∧
      c'.expiryQueue = c.expiryQueue ∧ size c' + 1 = size c ∧ c'.capacity = c.capacity := by
  have hl : (c.lruList.filter (fun p => decide (p.2 ≠ k))).map Prod.snd =
      (c.lruList.map Prod.snd).filter (fun x => decide (x ≠ k)) := by
    simp only [List.filter_map]
    rfl
  refine ⟨_, remove_present hwf hf, ?_, ?_, ?_, ?_, rfl, ?_, rfl⟩
  · simp only [find_eraseKey, if_true]
  · show k ∉ (c.lruList.filter (fun p => decide (p.2 ≠ k))).map Prod.snd
    rw [hl, List.mem_filter]
    simp
  · intro k' hk
    simp only [find_eraseKey, if_neg hk]
  · exact hl
  · exact length_eraseKey hwf.storeNodup hf

theorem get_frame_spec {c : HybridCache K V} (hwf : WellFormed c) (k : K) (now : Int) :
    ∃ r c', get c k now = some (r, c') ∧ c'.expiryQueue = c.expiryQueue ∧
      (∀ k', (find c'.store k').map entryData = (find c.store k').map entryData) ∧
      size c' = size c ∧
      r = (find c.store k).bind (fun e => if now < e.expiry then some e.value else none) := by
  cases hf : find c.store k with
  | none => exact ⟨none, c, get_absent hf now, rfl, fun _ => rfl, rfl, rfl⟩
  | some e =>
    by_cases hexp : e.expiry ≤ now
    · refine ⟨none, c, get_expired hf hexp, rfl, fun _ => rfl, rfl, ?_⟩
      simp only [Option.some_bind, not_lt.mpr hexp, if_false]
    · refine ⟨some e.value, _, get_live hwf hf (not_le.mp hexp), rfl, ?_, ?_, ?_⟩
      · intro k'
        by_cases hk : k' = k
        · subst hk
          simp only [find_assign, if_true, hf, Option.map_some', entryData]
        · simp only [find_assign, if_neg hk]
      · simp only [size, length_assign_present _ hf]
      · simp only [Option.some_bind, not_le.mp hexp, if_true]

theorem put_new_zero_undefined (k : K) (v : V) (ttl now : Int) :
    put (new 0 : HybridCache K V) k v ttl now = none := by
  simp [put, putMakeRoom, new, find]

theorem reachable_cacheA1 : Reachable cacheA1 :=
  ⟨5, [(Op.put "a" "apple" 1, 0)], by decide, by decide⟩

theorem reachable_cacheAB : Reachable cacheAB :=
  ⟨2, scenarioAB, by decide, by decide⟩

end StepLemmas

/-! ## The specification -/

section Construction

variable {K V : Type}

/-- C6 as stated fails: constructing a cache with capacity zero produces a cache
(the empty cache with `capacity = 0`), it does not fail. -/
theorem construct_zero_counterexample :
    (construct 0 : Option (HybridCache String String)) =
      some { store := [], lruList := [], nextNode := 0, expiryQueue := [], capacity := 0 } ∧
    (construct 0 : Option (HybridCache String String)) ≠ none :=
  ⟨rfl, by decide⟩

/-- C6 as amended: construction never fails; for every capacity, zero included, the
constructor produces the empty cache with that capacity. -/
theorem construct_always_succeeds (cap : Nat) :
    ∃ c : HybridCache K V, construct cap = some c ∧ c.capacity = cap ∧ size c = 0 ∧
      c.store = [] ∧ c.lruList = [] ∧ c.expiryQueue = [] :=
  ⟨new cap, rfl, rfl, rfl, rfl, rfl, rfl⟩

end Construction

section Claims

variable {K V : Type} [DecidableEq K]

/-- C1, capacity invariant: for every capacity of at least one and every finite
sequence of `put`, `get`, `exists`, `remove`, `size` and cleaner steps applied to
the empty cache at arbitrary times, every step is defined and after every step
(after every prefix of the sequence) the capacity is the one given at construction
and `size()` is at most the capacity. -/
theorem capacity_invariant (cap : Nat) (hcap : 1 ≤ cap) (ops : List (Op K V × Int)) (n : Nat) :
    ∃ c : HybridCache K V, runOps (new cap) (ops.take n) = some c ∧ c.capacity = cap ∧
      size c ≤ cap := by
  obtain ⟨c, h1, _, h3, h4⟩ := runOps_new (K := K) (V := V) cap hcap (ops.take n)
  exact ⟨c, h1, h3, h4⟩

/-- Witness of C1: the scenario `put(a)`, `put(b)`, `put(c)` on a cache of capacity 2;
after the three calls `size()` is 2. -/
theorem capacity_invariant_witness :
    1 ≤ 2 ∧
    (∃ c : HybridCache String Nat, runOps (new 2) (scenarioABC.take 3) = some c ∧ c.capacity = 2 ∧
      size c ≤ 2) ∧
    (runOps (new 2) scenarioABC).map size = some 2 :=
  ⟨by decide, capacity_invariant 2 (by decide) scenarioABC 3, by decide⟩

/-- C2, bijection invariant: for every capacity of at least one, every sequence of
steps from the empty cache is defined and leads to a state in which the recency
list has no duplicate key, the entry table has one entry per key, and a key is in
the recency list exactly when it is in the entry table. -/
theorem bijection_invariant (cap : Nat) (hcap : 1 ≤ cap) (ops : List (Op K V × Int)) :
    ∃ c : HybridCache K V, runOps (new cap) ops = some c ∧ (lruKeys c).Nodup ∧
      (storeKeys c).Nodup ∧ (∀ k, k ∈ lruKeys c ↔ k ∈ storeKeys c) ∧
      (lruKeys c).length = (storeKeys c).length := by
  obtain ⟨c, h1, h2, _, _⟩ := runOps_new (K := K) (V := V) cap hcap ops
  refine ⟨c, h1, Linked.lruKeys_nodup h2, h2.storeNodup, Linked.mem_lruKeys_iff h2, ?_⟩
  have hperm : (lruKeys c).Perm (storeKeys c) :=
    (List.perm_ext_iff_of_nodup (Linked.lruKeys_nodup h2) h2.storeNodup).mpr
      (Linked.mem_lruKeys_iff h2)
  exact hperm.length_eq

/-- Witness of C2: after `put(a)`, `put(b)`, `put(c)` on a cache of capacity 2 both
the recency list and the entry table hold the keys `b` and `c`. -/
theorem bijection_invariant_witness :
    1 ≤ 2 ∧
    (∃ c : HybridCache String Nat, runOps (new 2) scenarioABC = some c ∧ (lruKeys c).Nodup ∧
      (storeKeys c).Nodup ∧ (∀ k, k ∈ lruKeys c ↔ k ∈ storeKeys c) ∧
      (lruKeys c).length = (storeKeys c).length) ∧
    (runOps (new 2) scenarioABC).map lruKeys = some ["b", "c"] ∧
    (runOps (new 2) scenarioABC).map storeKeys = some ["b", "c"] :=
  ⟨by decide, bijection_invariant 2 (by decide) scenarioABC, by decide, by decide⟩

/-- C3, LRU eviction on `put`: in a reachable state whose entry table holds exactly
`capacity` entries, `put(k, v, ttl)` of a key `k` absent from the table is defined;
the recency list has a head `lruKey`, which was in the table, differs from `k` and
is afterwards in neither the table nor the recency list; every key other than
`lruKey` and `k` keeps its entry; `k` is stored with value `v` and expiry
`now + ttl`; the recency list is the old one without its head followed by `k`; and
`size()` is unchanged. -/
theorem put_evicts_lru_head {c : HybridCache K V} (hr : Reachable c) {k : K}
    (hfull : size c = c.capacity) (habs : find c.store k = none) (v : V) (ttl now : Int) :
    ∃ n lruKey rest c', c.lruList = (n, lruKey) :: rest ∧ put c k v ttl now = some c' ∧
      find c.store lruKey ≠ none ∧ lruKey ≠ k ∧
      find c'.store lruKey = none ∧ lruKey ∉ lruKeys c' ∧
      (∀ k', k' ≠ lruKey → k' ≠ k → find c'.store k' = find c.store k') ∧
      find c'.store k = some { value := v, expiry := now + ttl, lruIt := c.nextNode } ∧
      lruKeys c' = rest.map Prod.snd ++ [k] ∧ size c' = size c := by
  obtain ⟨hwf, hcap, _⟩ := hr.inv
  exact put_evict_spec hwf hcap (by rw [hfull]) habs v ttl now

/-- Witness of C3: capacity 2, `put(a)`, `put(b)`, then `put(c)` evicts `a`:
afterwards `exists(a)` is false, `exists(b)` and `exists(c)` are true. -/
theorem put_evicts_lru_head_witness :
    Reachable cacheAB ∧ size cacheAB = cacheAB.capacity ∧ find cacheAB.store "c" = none ∧
    (∃ n lruKey rest c', cacheAB.lruList = (n, lruKey) :: rest ∧
      put cacheAB "c" 3 100 0 = some c' ∧
      find cacheAB.store lruKey ≠ none ∧ lruKey ≠ "c" ∧
      find c'.store lruKey = none ∧ lruKey ∉ lruKeys c' ∧
      (∀ k', k' ≠ lruKey → k' ≠ "c" → find c'.store k' = find cacheAB.store k') ∧
      find c'.store "c" = some { value := 3, expiry := 0 + 100, lruIt := cacheAB.nextNode } ∧
      lruKeys c' = rest.map Prod.snd ++ ["c"] ∧ size c' = size cacheAB) ∧
    (runOps (new 2) scenarioABC).map
      (fun c => ((existsKey c "a" 0).1, (existsKey c "b" 0).1, (existsKey c "c" 0).1)) =
        some (false, true, true) :=
  ⟨⟨2, scenarioAB, by decide, by decide⟩, by decide, by decide,
    put_evicts_lru_head ⟨2, scenarioAB, by decide, by decide⟩ (by decide) (by decide) 3 100 0,
    by decide⟩

/-- C4, recency update on read: in a reachable state, `get(k)` at time `now` of a key
stored with an expiry after `now` is defined and returns the stored value; the
recency list afterwards is the old one without `k`, in the same order, followed by
`k`; every key keeps its value and expiry, and the expiry queue, `size()` and the
capacity are unchanged.  Consequently, when the cache then holds at least two keys
and is full, the `put` of any absent key evicts the head of the recency list, which
is a key other than `k`, and `k` keeps its value and expiry. -/
theorem get_promotes (c : HybridCache K V) (hr : Reachable c) (k : K) (e : CacheEntry V)
    (hf : find c.store k = some e) (now : Int) (hlive : now < e.expiry) :
    ∃ c', get c k now = some (some e.value, c') ∧
      lruKeys c' = (lruKeys c).filter (fun x => decide (x ≠ k)) ++ [k] ∧
      (∀ k', (find c'.store k').map entryData = (find c.store k').map entryData) ∧
      c'.expiryQueue = c.expiryQueue ∧ size c' = size c ∧ c'.capacity = c.capacity ∧
      (2 ≤ size c' → size c' = c'.capacity →
        ∀ (k2 : K) (v2 : V) (ttl2 now2 : Int), find c'.store k2 = none →
          ∃ victim c'', put c' k2 v2 ttl2 now2 = some c'' ∧ (lruKeys c').head? = some victim ∧
            victim ≠ k ∧ find c'.store victim ≠ none ∧ find c''.store victim = none ∧
            (find c''.store k).map entryData = some (e.value, e.expiry)) := by
  obtain ⟨hwf, hcap, _⟩ := hr.inv
  exact get_promote_spec hwf hcap hf hlive

/-- Witness of C4: capacity 2, `put(a)`, `put(b)`, `get(a)`, `put(c)`: the `get`
returns the value of `a` and makes `b` the head of the recency list, the `put`
evicts `b` and keeps `a` and `c`. -/
theorem get_promotes_witness :
    Reachable cacheAB ∧
    find cacheAB.store "a" = some { value := 1, expiry := 100, lruIt := 0 } ∧
    (∃ c', get cacheAB "a" 0 = some (some 1, c') ∧
      lruKeys c' = (lruKeys cacheAB).filter (fun x => decide (x ≠ "a")) ++ ["a"] ∧
      (∀ k', (find c'.store k').map entryData = (find cacheAB.store k').map entryData) ∧
      c'.expiryQueue = cacheAB.expiryQueue ∧ size c' = size cacheAB ∧
      c'.capacity = cacheAB.capacity ∧
      (2 ≤ size c' → size c' = c'.capacity →
        ∀ (k2 : String) (v2 : Nat) (ttl2 now2 : Int), find c'.store k2 = none →
          ∃ victim c'', put c' k2 v2 ttl2 now2 = some c'' ∧ (lruKeys c').head? = some victim ∧
            victim ≠ "a" ∧ find c'.store victim ≠ none ∧ find c''.store victim = none ∧
            (find c''.store "a").map entryData = some (1, 100))) ∧
    (runOps (new 2) scenarioGetA).map
      (fun c => (lruKeys c, (existsKey c "a" 0).1, (existsKey c "b" 0).1, (existsKey c "c" 0).1)) =
        some (["a", "c"], true, false, true) :=
  ⟨⟨2, scenarioAB, by decide, by decide⟩, by decide,
    get_promotes cacheAB ⟨2, scenarioAB, by decide, by decide⟩ "a"
      { value := 1, expiry := 100, lruIt := 0 } (by decide) 0 (by decide),
    by decide⟩

/-- C5, TTL correctness: in a reachable state, `put(k, v, t)` at time `t0` has a
result, and in the state right after it, for every query time `q`: `exists(k)` at
`q` is true exactly when `q < t0 + t`; `get(k)` at `q` returns `v` when `q < t0 + t`
and is absent (leaving the cache as it is) when `t0 + t ≤ q`. -/
theorem ttl_correct (c : HybridCache K V) (hr : Reachable c) (k : K) (v : V) (t t0 : Int) :
    ∃ c', put c k v t t0 = some c' ∧
      ∀ q : Int, ((existsKey c' k q).1 = true ↔ q < t0 + t) ∧
        (q < t0 + t → ∃ c'', get c' k q = some (some v, c'')) ∧
        (t0 + t ≤ q → get c' k q = some (none, c')) := by
  obtain ⟨hwf, hcap, hsize⟩ := hr.inv
  exact ttl_spec hwf hcap hsize k v t t0

/-- Witness of C5: on the empty cache of capacity 5, `put(a, apple, 1)` at time 0
and `get(a)` two time units later is absent; in the test driver (`put` of `a`, `b`,
`c` with ttl 3, 5, 6 at time 0) all three keys exist at time 0, and at time 4 `a`
does not exist while `b` and `c` do. -/
theorem ttl_correct_witness :
    Reachable (new 5 : HybridCache String String) ∧
    (∃ c', put (new 5 : HybridCache String String) "a" "apple" 1 0 = some c' ∧
      ∀ q : Int, ((existsKey c' "a" q).1 = true ↔ q < 0 + 1) ∧
        (q < 0 + 1 → ∃ c'', get c' "a" q = some (some "apple", c'')) ∧
        (0 + 1 ≤ q → get c' "a" q = some (none, c'))) ∧
    ((put (new 5 : HybridCache String String) "a" "apple" 1 0).bind
      (fun c => (get c "a" 2).map Prod.fst)) = some none ∧
    (runOps (new 5) driverPuts).map
      (fun c => ((existsKey c "a" 0).1, (existsKey c "b" 0).1, (existsKey c "c" 0).1)) =
        some (true, true, true) ∧
    (runOps (new 5) driverPuts).map
      (fun c => ((existsKey c "a" 4).1, (existsKey c "b" 4).1, (existsKey c "c" 4).1)) =
        some (false, true, true) :=
  ⟨⟨5, [], by decide, rfl⟩,
    ttl_correct (new 5) ⟨5, [], by decide, rfl⟩ "a" "apple" 1 0,
    by decide, by decide, by decide⟩

/-- C7, idempotent removal: in a reachable state `remove(k)` is defined and returns
true exactly when `k` is in the entry table; in the state after it a second
`remove(k)` returns false and changes nothing, also after any sequence of calls
that contains no `put` of `k`; and after a `put(k, ...)` the first `remove(k)`
returns true and the second returns false. -/
theorem remove_idempotent (c : HybridCache K V) (hr : Reachable c) (k : K) :
    (∃ b c', remove c k = some (b, c') ∧ (b = true ↔ find c.store k ≠ none) ∧
      remove c' k = some (false, c') ∧
      (∀ ops : List (Op K V × Int), (∀ p ∈ ops, ∀ v ttl, p.1 ≠ Op.put k v ttl) →
        ∃ c'', runOps c' ops = some c'' ∧ remove c'' k = some (false, c''))) ∧
    (∀ (v : V) (ttl now : Int), ∃ c1 c2, put c k v ttl now = some c1 ∧
      remove c1 k = some (true, c2) ∧ remove c2 k = some (false, c2)) := by
  obtain ⟨hwf, hcap, hsize⟩ := hr.inv
  exact ⟨remove_idem_spec hwf hcap hsize k, put_remove_twice hwf hcap hsize k⟩

/-- Witness of C7: on the cache holding `a` and `b`, `remove(a)` returns true and a
second `remove(a)` returns false. -/
theorem remove_idempotent_witness :
    Reachable cacheAB ∧
    ((∃ b c', remove cacheAB "a" = some (b, c') ∧ (b = true ↔ find cacheAB.store "a" ≠ none) ∧
      remove c' "a" = some (false, c') ∧
      (∀ ops : List (Op String Nat × Int), (∀ p ∈ ops, ∀ v ttl, p.1 ≠ Op.put "a" v ttl) →
        ∃ c'', runOps c' ops = some c'' ∧ remove c'' "a" = some (false, c''))) ∧
    (∀ (v : Nat) (ttl now : Int), ∃ c1 c2, put cacheAB "a" v ttl now = some c1 ∧
      remove c1 "a" = some (true, c2) ∧ remove c2 "a" = some (false, c2))) ∧
    (remove cacheAB "a").map Prod.fst = some true ∧
    ((remove cacheAB "a").bind (fun r => (remove r.2 "a").map Prod.fst)) = some false :=
  ⟨reachable_cacheAB, remove_idempotent cacheAB reachable_cacheAB "a", by decide, by decide⟩

/-- C8, `remove` on an absent key is a no-op: in every state, `remove(k)` of a key
that is not in the entry table returns false and leaves the whole cache (entry
table, recency list, expiry queue, hence `size()`) unchanged.  In every well-formed
state (every reachable state is well formed), `remove(k)` of a present key returns
true, deletes `k` and only `k` from the entry table and from the recency list
(order of the other keys kept), lowers `size()` by one and leaves the expiry queue
unchanged, stale pair included. -/
theorem remove_frame (c : HybridCache K V) (k : K) :
    (find c.store k = none → remove c k = some (false, c)) ∧
    (WellFormed c → ∀ e, find c.store k = some e →
      ∃ c', remove c k = some (true, c') ∧ find c'.store k = none ∧ k ∉ lruKeys c' ∧
        (∀ k', k' ≠ k → find c'.store k' = find c.store k') ∧
        lruKeys c' = (lruKeys c).filter (fun x => decide (x ≠ k)) ∧
        c'.expiryQueue = c.expiryQueue ∧ size c' + 1 = size c ∧ c'.capacity = c.capacity) :=
  ⟨fun habs => remove_absent habs, fun hwf _ hf => remove_present_spec hwf hf⟩

/-- Witness of C8: on the cache holding `a` and `b`, `remove(c)` returns false and
changes nothing; `remove(a)` returns true and leaves the pair `(100, a)` in the
expiry queue. -/
theorem remove_frame_witness :
    find cacheAB.store "c" = none ∧ remove cacheAB "c" = some (false, cacheAB) ∧
    WellFormed cacheAB ∧
    find cacheAB.store "a" = some { value := 1, expiry := 100, lruIt := 0 } ∧
    (∃ c', remove cacheAB "a" = some (true, c') ∧ find c'.store "a" = none ∧
      "a" ∉ lruKeys c' ∧
      (∀ k', k' ≠ "a" → find c'.store k' = find cacheAB.store k') ∧
      lruKeys c' = (lruKeys cacheAB).filter (fun x => decide (x ≠ "a")) ∧
      c'.expiryQueue = cacheAB.expiryQueue ∧ size c' + 1 = size cacheAB ∧
      c'.capacity = cacheAB.capacity) ∧
    (remove cacheAB "a").map (fun r => (lruKeys r.2, r.2.expiryQueue)) =
      some (["b"], [(100, "a"), (100, "b")]) :=
  ⟨by decide, (remove_frame cacheAB "c").1 (by decide), reachable_cacheAB.inv.1, by decide,
    (remove_frame cacheAB "a").2 reachable_cacheAB.inv.1
      { value := 1, expiry := 100, lruIt := 0 } (by decide), by decide⟩

/-- C9 as stated fails: on the cache of capacity 5 that holds `a` with expiry 1 (after
`put(a, apple, 1)` at time 0), `get(a)` at time 2 reports absent and leaves the
cache as it is: the pair `(1, a)` stays in the expiry queue and the entry of `a`
with expiry 1 stays in the entry table, so the cache is not drained at time 2. -/
theorem get_drains_counterexample :
    runOps (new 5) [(Op.put "a" "apple" 1, 0)] = some cacheA1 ∧
    get cacheA1 "a" 2 = some (none, cacheA1) ∧
    (1, "a") ∈ cacheA1.expiryQueue ∧
    find cacheA1.store "a" = some { value := "apple", expiry := 1, lruIt := 0 } ∧
    ¬ Drained cacheA1 2 := by
  refine ⟨by decide, by decide, by decide, by decide, ?_⟩
  intro h
  exact absurd (h.1 (1, "a") (by decide)) (by decide)

/-- C9 as amended: `get` does not drain.  In a reachable state `get(k)` at time `now`
is defined, leaves the expiry queue unchanged and removes no entry (every key keeps
its value and expiry, `size()` is unchanged); it answers from the stored expiry of
`k` alone: absent when `k` is not in the table or its expiry is `≤ now`, the stored
value otherwise. -/
theorem get_does_not_drain (c : HybridCache K V) (hr : Reachable c) (k : K) (now : Int) :
    ∃ r c', get c k now = some (r, c') ∧ c'.expiryQueue = c.expiryQueue ∧
      (∀ k', (find c'.store k').map entryData = (find c.store k').map entryData) ∧
      size c' = size c ∧
      r = (find c.store k).bind (fun e => if now < e.expiry then some e.value else none) :=
  get_frame_spec hr.inv.1 k now

/-- Witness of C9 as amended: `get(a)` at time 2 on the cache that holds `a` with
expiry 1. -/
theorem get_does_not_drain_witness :
    Reachable cacheA1 ∧
    ∃ r c', get cacheA1 "a" 2 = some (r, c') ∧ c'.expiryQueue = cacheA1.expiryQueue ∧
      (∀ k', (find c'.store k').map entryData = (find cacheA1.store k').map entryData) ∧
      size c' = size cacheA1 ∧
      r = (find cacheA1.store "a").bind
        (fun e => if 2 < e.expiry then some e.value else none) :=
  ⟨reachable_cacheA1, get_does_not_drain cacheA1 reachable_cacheA1 "a" 2⟩

/-- C10, `exists` is a read-only probe: in every state, `exists(k)` at time `now`
returns true exactly when `k` is in the entry table with a stored expiry after
`now`, and the cache afterwards (entry table, recency list with its order, expiry
queue) is the cache before. -/
theorem exists_read_only (c : HybridCache K V) (k : K) (now : Int) :
    ((existsKey c k now).1 = true ↔ ∃ e, find c.store k = some e ∧ now < e.expiry) ∧
    (existsKey c k now).2 = c := by
  rw [existsKey_eq]
  exact ⟨by simp, rfl⟩

end Claims

/-! ## The expiry queue -/

section QueueLemmas

variable {K : Type}

theorem pushExpiry_perm (q : List (Int × K)) (e : Int × K) :
    (pushExpiry q e).Perm (e :: q) := by
  induction q with
  | nil => exact List.Perm.refl _
  | cons x rest ih =>
    unfold pushExpiry
    by_cases h : e.1 < x.1
    · simp only [h, if_true]
      exact List.Perm.refl _
    · simp only [h, if_false]
      exact (List.Perm.cons x ih).trans (List.Perm.swap e x rest)

theorem mem_pushExpiry {q : List (Int × K)} {e x : Int × K} :
    x ∈ pushExpiry q e ↔ x = e ∨ x ∈ q := by
  rw [(pushExpiry_perm q e).mem_iff, List.mem_cons]

theorem pushExpiry_sorted {q : List (Int × K)} (e : Int × K)
    (h : q.Pairwise (fun a b => a.1 ≤ b.1)) :
    (pushExpiry q e).Pairwise (fun a b => a.1 ≤ b.1) := by
  induction q with
  | nil => simp [pushExpiry]
  | cons x rest ih =>
    rw [List.pairwise_cons] at h
    unfold pushExpiry
    by_cases hlt : e.1 < x.1
    · simp only [hlt, if_true]
      rw [List.pairwise_cons]
      refine ⟨?_, List.pairwise_cons.mpr h⟩
      intro y hy
      rcases List.mem_cons.mp hy with hy | hy
      · rw [hy]
        exact le_of_lt hlt
      · exact le_trans (le_of_lt hlt) (h.1 y hy)
    · simp only [hlt, if_false]
      rw [List.pairwise_cons]
      refine ⟨?_, ih h.2⟩
      intro y hy
      rcases mem_pushExpiry.mp hy with hy | hy
      · rw [hy]
        exact not_lt.mp hlt
      · exact h.1 y hy

theorem sorted_head_lt {q : List (Int × K)} {now : Int}
    (hs : q.Pairwise (fun a b => a.1 ≤ b.1)) (hh : ∀ p ∈ q.head?, now < p.1) :
    ∀ p ∈ q, now < p.1 := by
  cases q with
  | nil => simp
  | cons x rest =>
    rw [List.pairwise_cons] at hs
    have hx : now < x.1 := hh x (by simp)
    intro p hp
    rcases List.mem_cons.mp hp with hp | hp
    · rw [hp]
      exact hx
    · exact lt_of_lt_of_le hx (hs.1 p hp)

end QueueLemmas

section DrainLemmas

variable {K V : Type} [DecidableEq K]

/-- What the loop of `cleanupExpired` leaves of the queue: a suffix of the queue
whose head, if any, has a time point after `now`. -/
theorem cleanupLoop_queue (now : Int) (q : List (Int × K)) :
    ∀ (s s' : List (K × CacheEntry V)) (l l' : List (Nat × K)) (q' : List (Int × K)),
      cleanupLoop now q s l = some (s', l', q') →
      q' <:+ q ∧ ∀ p ∈ q'.head?, now < p.1 := by
  induction q with
  | nil =>
    intro s s' l l' q' h
    simp only [cleanupLoop, Option.some.injEq, Prod.mk.injEq] at h
    rw [← h.2.2]
    exact ⟨List.suffix_refl _, by simp⟩
  | cons p rest ih =>
    intro s s' l l' q' h
    obtain ⟨t, key⟩ := p
    by_cases ht : t ≤ now
    · have hrec : ∃ s1 l1, cleanupLoop now rest s1 l1 = some (s', l', q') := by
        cases hf : find s key with
        | none =>
          simp only [cleanupLoop, ht, if_true, hf] at h
          exact ⟨_, _, h⟩
        | some e =>
          by_cases hexp : e.expiry ≤ now
          · cases hn : eraseNode l e.lruIt with
            | none => simp [cleanupLoop, ht, hf, hexp, hn] at h
            | some lru' =>
              simp only [cleanupLoop, ht, if_true, hf, hexp, hn] at h
              exact ⟨_, _, h⟩
          · simp only [cleanupLoop, ht, if_true, hf, hexp, if_false] at h
            exact ⟨_, _, h⟩
      obtain ⟨s1, l1, h1⟩ := hrec
      obtain ⟨h2, h3⟩ := ih s1 s' l1 l' q' h1
      exact ⟨h2.trans (List.suffix_cons _ _), h3⟩
    · simp only [cleanupLoop, ht, if_false, Option.some.injEq, Prod.mk.injEq] at h
      rw [← h.2.2]
      refine ⟨List.suffix_refl _, ?_⟩
      intro p hp
      simp only [List.head?_cons, Option.mem_def, Option.some.injEq] at hp
      rw [← hp]
      exact not_le.mp ht

/-- The loop of `cleanupExpired` keeps the pair of every entry it leaves in the
table: it pops the pair of an entry only together with the entry. -/
theorem cleanupLoop_covered (now : Int) (q : List (Int × K)) :
    ∀ (s s' : List (K × CacheEntry V)) (l l' : List (Nat × K)) (q' : List (Int × K)),
      cleanupLoop now q s l = some (s', l', q') →
      (∀ k e, find s k = some e → (e.expiry, k) ∈ q) →
      ∀ k e, find s' k = some e → (e.expiry, k) ∈ q' := by
  induction q with
  | nil =>
    intro s s' l l' q' h hcov k e hf
    simp only [cleanupLoop, Option.some.injEq, Prod.mk.injEq] at h
    rw [← h.1] at hf
    exact absurd (hcov k e hf) (List.not_mem_nil _)
  | cons p rest ih =>
    intro s s' l l' q' h hcov
    obtain ⟨t, key⟩ := p
    by_cases ht : t ≤ now
    · cases hf : find s key with
      | none =>
        simp only [cleanupLoop, ht, if_true, hf] at h
        apply ih s s' l l' q' h
        intro k e hk
        rcases List.mem_cons.mp (hcov k e hk) with h1 | h1
        · have : k = key := (Prod.mk.inj h1).2
          rw [this, hf] at hk
          cases hk
        · exact h1
      | some e0 =>
        by_cases hexp : e0.expiry ≤ now
        · cases hn : eraseNode l e0.lruIt with
          | none => simp [cleanupLoop, ht, hf, hexp, hn] at h
          | some lru' =>
            simp only [cleanupLoop, ht, if_true, hf, hexp, hn] at h
            apply ih _ s' _ l' q' h
            intro k e hk
            rw [find_eraseKey] at hk
            by_cases hkk : k = key
            · simp [hkk] at hk
            · simp only [hkk, if_false] at hk
              rcases List.mem_cons.mp (hcov k e hk) with h1 | h1
              · exact absurd (Prod.mk.inj h1).2 hkk
              · exact h1
        · simp only [cleanupLoop, ht, if_true, hf, hexp, if_false] at h
          apply ih s s' l l' q' h
          intro k e hk
          rcases List.mem_cons.mp (hcov k e hk) with h1 | h1
          · obtain ⟨h2, h3⟩ := Prod.mk.inj h1
            subst h3
            rw [hf] at hk
            cases hk
            exact absurd (h2 ▸ ht) hexp
          · exact h1
    · simp only [cleanupLoop, ht, if_false, Option.some.injEq, Prod.mk.injEq] at h
      intro k e hk
      rw [← h.1] at hk
      rw [← h.2.2]
      exact hcov k e hk

/-- With the queue invariant the loop of `cleanupExpired` drains: it leaves no pair
with a time point `≤ now` and no entry with an expiry `≤ now`, and keeps the queue
invariant. -/
theorem cleanupLoop_drained {now : Int} {q q' : List (Int × K)}
    {s s' : List (K × CacheEntry V)} {l l' : List (Nat × K)}
    (h : cleanupLoop now q s l = some (s', l', q')) (hq : QueueOk s q)
    (hnd : (s'.map Prod.fst).Nodup) :
    QueueOk s' q' ∧ (∀ p ∈ q', now < p.1) ∧ (∀ p ∈ s', now < p.2.expiry) := by
  obtain ⟨hsuf, hhead⟩ := cleanupLoop_queue now q s s' l l' q' h
  have hcov := cleanupLoop_covered now q s s' l l' q' h hq.2
  have hsorted : q'.Pairwise (fun a b => a.1 ≤ b.1) := hq.1.sublist hsuf.sublist
  have hall := sorted_head_lt hsorted hhead
  refine ⟨⟨hsorted, hcov⟩, hall, ?_⟩
  intro p hp
  obtain ⟨k, e⟩ := p
  exact hall _ (hcov k e (find_of_mem hnd hp))

/-- What `put` does to the expiry queue and to the entries of the other keys: it
pushes its pair and pops nothing, and it removes at most the head of the recency
list, and that only when the key is new and the table is full. -/
theorem put_frame_spec {c : HybridCache K V} (hwf : WellFormed c) (hcap : 1 ≤ c.capacity)
    (k : K) (v : V) (ttl now : Int) :
    ∃ c', put c k v ttl now = some c' ∧
      c'.expiryQueue = pushExpiry c.expiryQueue (now + ttl, k) ∧
      find c'.store k = some { value := v, expiry := now + ttl, lruIt := c.nextNode } ∧
      (∀ k', k' ≠ k → find c'.store k' = find c.store k' ∨
        (find c'.store k' = none ∧ find c.store k = none ∧ c.capacity ≤ size c ∧
          (lruKeys c).head? = some k')) := by
  cases hf : find c.store k with
  | some e =>
    refine ⟨_, put_present hwf hf v ttl now, rfl, ?_, ?_⟩
    · simp only [find_assign, if_true]
    · intro k' hk
      left
      simp only [find_assign, if_neg hk]
  | none =>
    by_cases hfull : c.capacity ≤ c.store.length
    · obtain ⟨n, lruKey, rest, hl, hput⟩ := put_full hwf hf hfull hcap v ttl now
      refine ⟨_, hput, rfl, ?_, ?_⟩
      · simp only [find_assign, if_true]
      · intro k' hk
        simp only [find_assign, if_neg hk, find_eraseKey, size]
        by_cases hk2 : k' = lruKey
        · right
          refine ⟨by simp only [hk2, if_true], trivial, hfull, ?_⟩
          simp only [lruKeys, hl, List.map_cons, List.head?_cons, hk2]
        · left
          simp only [hk2, if_false]
    · refine ⟨_, put_room hf hfull v ttl now, rfl, ?_, ?_⟩
      · simp only [find_assign, if_true]
      · intro k' hk
        left
        simp only [find_assign, if_neg hk]

theorem step_queueOk {c c' : HybridCache K V} (hwf : WellFormed c) (hcap : 1 ≤ c.capacity)
    (hq : QueueOk c.store c.expiryQueue) {op : Op K V}
    {now : Int} (h : step c op now = some c') : QueueOk c'.store c'.expiryQueue := by
  cases op with
  | put key value ttlSeconds =>
    obtain ⟨c1, h1, h2, h3, h4⟩ := put_frame_spec hwf hcap key value ttlSeconds now
    simp only [step, h1, Option.some.injEq] at h
    subst h
    rw [h2]
    refine ⟨pushExpiry_sorted _ hq.1, ?_⟩
    intro k e hk
    rw [mem_pushExpiry]
    by_cases hkk : k = key
    · subst hkk
      rw [h3] at hk
      cases hk
      exact Or.inl rfl
    · rcases h4 k hkk with h5 | h5
      · rw [h5] at hk
        exact Or.inr (hq.2 k e hk)
      · rw [h5.1] at hk
        cases hk
  | get key =>
    obtain ⟨r, c1, h1, h2, h3, _, _⟩ := get_frame_spec hwf key now
    simp only [step, h1, Option.map_some', Option.some.injEq] at h
    subst h
    rw [h2]
    refine ⟨hq.1, ?_⟩
    intro k e hk
    have h4 := h3 k
    rw [hk] at h4
    cases hf : find c.store k with
    | none => simp [hf] at h4
    | some e0 =>
      simp only [hf, Option.map_some', Option.some.injEq, entryData, Prod.mk.injEq] at h4
      rw [h4.2]
      exact hq.2 k e0 hf
  | existsKey key =>
    simp only [step, existsKey_eq, Option.some.injEq] at h
    rw [← h]
    exact hq
  | remove key =>
    cases hf : find c.store key with
    | none =>
      simp only [step, remove_absent hf, Option.map_some', Option.some.injEq] at h
      rw [← h]
      exact hq
    | some e0 =>
      simp only [step, remove_present hwf hf, Option.map_some', Option.some.injEq] at h
      subst h
      refine ⟨hq.1, ?_⟩
      intro k e hk
      simp only [find_eraseKey] at hk
      by_cases hkk : k = key
      · simp [hkk] at hk
      · simp only [hkk, if_false] at hk
        exact hq.2 k e hk
  | size =>
    simp only [step, Option.some.injEq] at h
    rw [← h]
    exact hq
  | cleanupExpired =>
    simp only [step, cleanupExpired] at h
    cases hloop : cleanupLoop now c.expiryQueue c.store c.lruList with
    | none => simp [hloop] at h
    | some r =>
      obtain ⟨s', l', q'⟩ := r
      simp only [hloop, Option.some.injEq] at h
      subst h
      obtain ⟨s2, l2, q2, g1, g2, _⟩ := cleanupLoop_inv now c.expiryQueue c.store c.lruList _ hwf
      rw [hloop] at g1
      cases g1
      exact (cleanupLoop_drained hloop hq g2.storeNodup).1

theorem runOps_queueOk (ops : List (Op K V × Int)) :
    ∀ c c' : HybridCache K V, WellFormed c → 1 ≤ c.capacity → size c ≤ c.capacity →
      QueueOk c.store c.expiryQueue → runOps c ops = some c' →
      QueueOk c'.store c'.expiryQueue := by
  induction ops with
  | nil =>
    intro c c' _ _ _ hq h
    simp only [runOps, Option.some.injEq] at h
    rw [← h]
    exact hq
  | cons p rest ih =>
    intro c c' hwf hcap hsize hq h
    obtain ⟨op, now⟩ := p
    obtain ⟨c1, h1, h2, h3, h4⟩ := step_inv hwf hcap hsize op now
    simp only [runOps, h1] at h
    exact ih c1 c' h2 (by omega) h4 (step_queueOk hwf hcap hq h1) h

theorem Reachable.queueOk {c : HybridCache K V} (h : Reachable c) :
    QueueOk c.store c.expiryQueue := by
  obtain ⟨cap, ops, hcap, hrun⟩ := h
  refine runOps_queueOk ops (new cap) c (wellFormed_new cap) hcap (Nat.zero_le _) ?_ hrun
  exact ⟨List.Pairwise.nil, fun k e hf => by simp [new, find] at hf⟩

theorem Linked.filter_present {s : List (K × CacheEntry V)} {l : List (Nat × K)} {next : Nat}
    (h : Linked s l next) :
    (l.map Prod.snd).filter (fun k => (find s k).isSome) = l.map Prod.snd := by
  rw [List.filter_eq_self]
  intro k hk
  obtain ⟨e, he⟩ := find_isSome_iff.mpr ((h.mem_lruKeys_iff k).mp hk)
  rw [he]
  rfl

/-- The recency list after the loop of `cleanupExpired`: the old list, in the old
order, without the keys the loop erased from the table. -/
theorem cleanupLoop_lru (now : Int) (q : List (Int × K)) :
    ∀ (s s' : List (K × CacheEntry V)) (l l' : List (Nat × K)) (q' : List (Int × K))
      (next : Nat), Linked s l next → cleanupLoop now q s l = some (s', l', q') →
      l'.map Prod.snd = (l.map Prod.snd).filter (fun k => (find s' k).isSome) := by
  induction q with
  | nil =>
    intro s s' l l' q' next hl h
    simp only [cleanupLoop, Option.some.injEq, Prod.mk.injEq] at h
    rw [← h.1, ← h.2.1, hl.filter_present]
  | cons p rest ih =>
    intro s s' l l' q' next hl h
    obtain ⟨t, key⟩ := p
    by_cases ht : t ≤ now
    · cases hf : find s key with
      | none =>
        simp only [cleanupLoop, ht, if_true, hf] at h
        exact ih s s' l l' q' next hl h
      | some e =>
        by_cases hexp : e.expiry ≤ now
        · simp only [cleanupLoop, ht, if_true, hf, hexp, Linked.eraseNode_eq hl hf] at h
          have h1 := ih _ s' _ l' q' next (Linked.erase hl key) h
          have hgone : find s' key = none := by
            rcases cleanupLoop_find now rest _ s' _ l' q' h key with h2 | h2
            · rw [h2, find_eraseKey, if_pos rfl]
            · exact h2.1
          rw [h1, List.filter_map, List.filter_map, List.filter_filter]
          congr 1
          apply List.filter_congr
          intro x _
          by_cases hx : x.2 = key
          · simp [hx, hgone]
          · simp [hx]
        · simp only [cleanupLoop, ht, if_true, hf, hexp, if_false] at h
          exact ih s s' l l' q' next hl h
    · simp only [cleanupLoop, ht, if_false, Option.some.injEq, Prod.mk.injEq] at h
      rw [← h.1, ← h.2.1, hl.filter_present]

/-- A drain on a well-formed cache: it has a result, it removes only entries whose
stored expiry is `≤ now`, and the recency list keeps the remaining keys in their
order. -/
theorem cleanupExpired_live_spec {c : HybridCache K V} (hwf : WellFormed c) (now : Int) :
    ∃ c', cleanupExpired c now = some c' ∧
      (∀ k e, find c.store k = some e → now < e.expiry → find c'.store k = some e) ∧
      (∀ k e, find c'.store k = some e → find c.store k = some e) ∧
      (∀ k e, find c.store k = some e → find c'.store k = none → e.expiry ≤ now) ∧
      lruKeys c' = (lruKeys c).filter (fun k => (find c'.store k).isSome) ∧
      c'.capacity = c.capacity := by
  obtain ⟨s', l', q', h1, h2, _⟩ := cleanupLoop_inv now c.expiryQueue c.store c.lruList _ hwf
  have h4 : cleanupExpired c now =
      some { c with store := s', lruList := l', expiryQueue := q' } := by
    simp only [cleanupExpired, h1]
  have hfind := cleanupLoop_find now c.expiryQueue c.store s' c.lruList l' q' h1
  refine ⟨_, h4, ?_, ?_, ?_, ?_, rfl⟩
  · intro k e hk hlive
    rcases hfind k with h5 | h5
    · simp only [h5, hk]
    · obtain ⟨_, e1, he1, hexp⟩ := h5
      rw [hk] at he1
      cases he1
      exact absurd hlive (not_lt.mpr hexp)
  · intro k e hk
    rcases hfind k with h5 | h5
    · simp only at hk
      rw [← h5, hk]
    · simp only at hk
      rw [h5.1] at hk
      cases hk
  · intro k e hk hgone
    rcases hfind k with h5 | h5
    · simp only at hgone
      rw [h5, hk] at hgone
      cases hgone
    · obtain ⟨_, e1, he1, hexp⟩ := h5
      rw [hk] at he1
      cases he1
      exact hexp
  · exact cleanupLoop_lru now c.expiryQueue c.store s' c.lruList l' q' _ hwf h1

/-- A drain on a linked table whose queue invariant holds: it has a result, keeps
both invariants and leaves the cache drained. -/
theorem cleanupExpired_drained {c : HybridCache K V} (hwf : WellFormed c)
    (hq : QueueOk c.store c.expiryQueue) (now : Int) :
    ∃ c', cleanupExpired c now = some c' ∧ WellFormed c' ∧
      QueueOk c'.store c'.expiryQueue ∧ Drained c' now := by
  obtain ⟨s', l', q', h1, h2, _⟩ := cleanupLoop_inv now c.expiryQueue c.store c.lruList _ hwf
  have h4 : cleanupExpired c now =
      some { c with store := s', lruList := l', expiryQueue := q' } := by
    simp only [cleanupExpired, h1]
  obtain ⟨g1, g2, g3⟩ := cleanupLoop_drained h1 hq h2.storeNodup
  exact ⟨_, h4, h2, g1, g2, g3⟩

theorem assign_keys_present {E : Type} {s : List (K × E)} {k : K} (e : E) {e1 : E}
    (h : find s k = some e1) : (assign s k e).map Prod.fst = s.map Prod.fst := by
  simp only [assign, h, List.map_map]
  apply List.map_congr_left
  intro p _
  by_cases hp : p.1 = k
  · simp [hp]
  · simp [hp]

theorem put_refresh_spec {c : HybridCache K V} (hwf : WellFormed c) {k : K}
    {e : CacheEntry V} (hf : find c.store k = some e) (v : V) (ttl now : Int) :
    ∃ c', put c k v ttl now = some c' ∧ storeKeys c' = storeKeys c ∧ size c' = size c ∧
      find c'.store k = some { value := v, expiry := now + ttl, lruIt := c.nextNode } ∧
      (∀ k', k' ≠ k → find c'.store k' = find c.store k') ∧
      lruKeys c' = (lruKeys c).filter (fun x => decide (x ≠ k)) ++ [k] ∧
      c'.expiryQueue.Perm ((now + ttl, k) :: c.expiryQueue) ∧
      c'.capacity = c.capacity := by
  refine ⟨_, put_present hwf hf v ttl now, ?_, ?_, ?_, ?_, ?_, ?_, rfl⟩
  · exact assign_keys_present _ hf
  · simp only [size, length_assign_present _ hf]
  · simp only [find_assign, if_true]
  · intro k' hk
    simp only [find_assign, if_neg hk]
  · exact lruKeys_touch c.lruList c.nextNode k
  · exact pushExpiry_perm _ _

theorem put_negative_spec {c : HybridCache K V} (hwf : WellFormed c) (hcap : 1 ≤ c.capacity)
    (k : K) (v : V) (ttl now : Int) (hneg : ttl < 0) :
    ∃ c1 c0, put c k v ttl now = some c1 ∧ put c k v 0 now = some c0 ∧ c1 ≠ c0 ∧
      find c1.store k = some { value := v, expiry := now + ttl, lruIt := c.nextNode } ∧
      find c0.store k = some { value := v, expiry := now, lruIt := c.nextNode } ∧
      c1.expiryQueue = pushExpiry c.expiryQueue (now + ttl, k) ∧
      c0.expiryQueue = pushExpiry c.expiryQueue (now, k) ∧
      (∀ k', k' ≠ k → find c1.store k' = find c0.store k') ∧
      storeKeys c1 = storeKeys c0 ∧ c1.lruList = c0.lruList ∧
      c1.nextNode = c0.nextNode ∧ c1.capacity = c0.capacity ∧
      (∀ q : Int, now ≤ q → (existsKey c1 k q).1 = false ∧ (existsKey c0 k q).1 = false) := by
  obtain ⟨c1, h1, _, hk1, _⟩ := put_frame_spec hwf hcap k v ttl now
  obtain ⟨c0, h0, _, hk0, _⟩ := put_frame_spec hwf hcap k v 0 now
  rw [add_zero] at hk0
  have hne : c1 ≠ c0 := by
    intro heq
    rw [heq, hk0] at hk1
    simp only [Option.some.injEq, CacheEntry.mk.injEq, true_and, and_true] at hk1
    omega
  have hex : ∀ q : Int, now ≤ q →
      (existsKey c1 k q).1 = false ∧ (existsKey c0 k q).1 = false := by
    intro q hq
    simp only [existsKey, hk1, hk0, decide_eq_false_iff_not, not_lt]
    exact ⟨by omega, hq⟩
  refine ⟨c1, c0, h1, h0, hne, hk1, hk0, ?_⟩
  unfold put at h1 h0
  cases hroom : putMakeRoom c k with
  | none => simp [hroom] at h1
  | some sl =>
    obtain ⟨s0, l0⟩ := sl
    simp only [hroom, Option.some.injEq] at h1 h0
    subst h1
    subst h0
    refine ⟨rfl, by rw [add_zero], ?_, ?_, rfl, rfl, rfl, hex⟩
    · intro k' hk
      simp only [find_assign, if_neg hk]
    · simp only [storeKeys, assign]
      cases find s0 k with
      | none => simp
      | some e1 =>
        simp only [List.map_map]
        apply List.map_congr_left
        intro p _
        by_cases hp : p.1 = k
        · simp [hp]
        · simp [hp]

theorem put_zero_drained_spec {c : HybridCache K V} (hwf : WellFormed c)
    (hcap : 1 ≤ c.capacity) (hsize : size c ≤ c.capacity)
    (hq : QueueOk c.store c.expiryQueue) (k : K) (v : V) (t0 now : Int) (hle : t0 ≤ now) :
    ∃ c1 c2, put c k v 0 t0 = some c1 ∧ cleanupExpired c1 now = some c2 ∧
      find c2.store k = none := by
  obtain ⟨c1, h1, hwf1, hcap1, _⟩ := put_inv hwf hcap hsize k v 0 t0
  have hq1 : QueueOk c1.store c1.expiryQueue :=
    @step_queueOk K V _ c c1 hwf hcap hq (Op.put k v 0) t0 h1
  have hk1 := put_find_self h1
  obtain ⟨c2, h2, hwf2, _, hdr⟩ := cleanupExpired_drained hwf1 hq1 now
  refine ⟨c1, c2, h1, h2, ?_⟩
  cases hf : find c2.store k with
  | none => rfl
  | some e =>
    have hmem := find_mem hf
    have hlive := hdr.2 (k, e) hmem
    obtain ⟨c2', h2', _, hback, _⟩ := cleanupExpired_live_spec hwf1 now
    rw [h2] at h2'
    cases h2'
    have := hback k e hf
    rw [hk1] at this
    cases this
    simp only at hlive
    omega

theorem reachable_cacheRefreshed : Reachable cacheRefreshed :=
  ⟨3, scenarioRefresh, by decide, by decide⟩

theorem reachable_new5 : Reachable (new 5 : HybridCache String String) :=
  ⟨5, [], by decide, rfl⟩

end DrainLemmas

section DrainClaims

variable {K V : Type} [DecidableEq K]

/-- C11 as stated fails: on the empty cache of capacity 5, `put(a, apple, -1)` at time
0 stores the expiry `-1` and pushes the pair `(-1, a)`, while `put(a, apple, 0)`
stores the expiry `0` and pushes `(0, a)`: the two states differ. -/
theorem negative_ttl_counterexample :
    put (new 5 : HybridCache String String) "a" "apple" (-1) 0 =
      some { store := [("a", { value := "apple", expiry := -1, lruIt := 0 })]
             lruList := [(0, "a")]
             nextNode := 1
             expiryQueue := [(-1, "a")]
             capacity := 5 } ∧
    put (new 5 : HybridCache String String) "a" "apple" 0 0 =
      some { store := [("a", { value := "apple", expiry := 0, lruIt := 0 })]
             lruList := [(0, "a")]
             nextNode := 1
             expiryQueue := [(0, "a")]
             capacity := 5 } ∧
    put (new 5 : HybridCache String String) "a" "apple" (-1) 0 ≠
      put (new 5 : HybridCache String String) "a" "apple" 0 0 :=
  ⟨by decide, by decide, by decide⟩

/-- C11 as amended: a negative TTL is not normalized.  In a reachable state and for
`ttl < 0`, `put(k, v, ttl)` and `put(k, v, 0)` at time `now` both have a result and
the two states differ: the first stores the expiry `now + ttl` and pushes the pair
`(now + ttl, k)`, the second stores `now` and pushes `(now, k)`.  They agree on the
entries of all other keys, the keys of the table, the recency list, the node
counter and the capacity, and in both `exists(k)` is false at every time from
`now` on. -/
theorem put_negative_ttl_not_normalized (c : HybridCache K V) (hr : Reachable c) (k : K)
    (v : V) (ttl now : Int) (hneg : ttl < 0) :
    ∃ c1 c0, put c k v ttl now = some c1 ∧ put c k v 0 now = some c0 ∧ c1 ≠ c0 ∧
      find c1.store k = some { value := v, expiry := now + ttl, lruIt := c.nextNode } ∧
      find c0.store k = some { value := v, expiry := now, lruIt := c.nextNode } ∧
      c1.expiryQueue = pushExpiry c.expiryQueue (now + ttl, k) ∧
      c0.expiryQueue = pushExpiry c.expiryQueue (now, k) ∧
      (∀ k', k' ≠ k → find c1.store k' = find c0.store k') ∧
      storeKeys c1 = storeKeys c0 ∧ c1.lruList = c0.lruList ∧
      c1.nextNode = c0.nextNode ∧ c1.capacity = c0.capacity ∧
      (∀ q : Int, now ≤ q → (existsKey c1 k q).1 = false ∧ (existsKey c0 k q).1 = false) := by
  obtain ⟨hwf, hcap, _⟩ := hr.inv
  exact put_negative_spec hwf hcap k v ttl now hneg

/-- Witness of C11 as amended: `put(a, apple, -1)` at time 0 on the empty cache of
capacity 5. -/
theorem put_negative_ttl_not_normalized_witness :
    Reachable (new 5 : HybridCache String String) ∧ (-1 : Int) < 0 ∧
    ∃ c1 c0, put (new 5 : HybridCache String String) "a" "apple" (-1) 0 = some c1 ∧
      put (new 5 : HybridCache String String) "a" "apple" 0 0 = some c0 ∧ c1 ≠ c0 ∧
      find c1.store "a" =
        some ⟨"apple", 0 + -1, (new 5 : HybridCache String String).nextNode⟩ ∧
      find c0.store "a" = some ⟨"apple", 0, (new 5 : HybridCache String String).nextNode⟩ ∧
      c1.expiryQueue =
        pushExpiry (new 5 : HybridCache String String).expiryQueue (0 + -1, "a") ∧
      c0.expiryQueue = pushExpiry (new 5 : HybridCache String String).expiryQueue (0, "a") ∧
      (∀ k', k' ≠ "a" → find c1.store k' = find c0.store k') ∧
      storeKeys c1 = storeKeys c0 ∧ c1.lruList = c0.lruList ∧
      c1.nextNode = c0.nextNode ∧ c1.capacity = c0.capacity ∧
      (∀ q : Int, 0 ≤ q → (existsKey c1 "a" q).1 = false ∧ (existsKey c0 "a" q).1 = false) :=
  ⟨reachable_new5, by decide,
    put_negative_ttl_not_normalized (new 5) reachable_new5 "a" "apple" (-1) 0 (by decide)⟩

/-- C12, `put` on a present key is a refresh without eviction: in a reachable state
(full or not), `put(k, v, ttl)` at time `now` of a key `k` that is in the entry table
has a result; the keys of the table and `size()` are unchanged; `k` is stored with
value `v` and expiry `now + ttl`; every other key keeps its entry; the recency list
is the old one without `k`, in the same order, followed by `k`; and the expiry queue
is the old one plus the pair `(now + ttl, k)`, the old pair of `k` included. -/
theorem put_refreshes (c : HybridCache K V) (hr : Reachable c) (k : K) (e : CacheEntry V)
    (hf : find c.store k = some e) (v : V) (ttl now : Int) :
    ∃ c', put c k v ttl now = some c' ∧ storeKeys c' = storeKeys c ∧ size c' = size c ∧
      find c'.store k = some { value := v, expiry := now + ttl, lruIt := c.nextNode } ∧
      (∀ k', k' ≠ k → find c'.store k' = find c.store k') ∧
      lruKeys c' = (lruKeys c).filter (fun x => decide (x ≠ k)) ++ [k] ∧
      c'.expiryQueue.Perm ((now + ttl, k) :: c.expiryQueue) ∧
      c'.capacity = c.capacity ∧ (e.expiry, k) ∈ c'.expiryQueue := by
  obtain ⟨c', h1, h2, h3, h4, h5, h6, h7, h8⟩ := put_refresh_spec hr.inv.1 hf v ttl now
  refine ⟨c', h1, h2, h3, h4, h5, h6, h7, h8, ?_⟩
  rw [h7.mem_iff]
  exact List.mem_cons_of_mem _ (hr.queueOk.2 k e hf)

/-- Witness of C12: on the full cache of capacity 2 that holds `a` and `b`,
`put(a, 9, 50)` at time 1 evicts nothing: the table still holds `a` and `b`, the
recency list is `b`, `a` and the queue holds the old pair `(100, a)` and the new
pair `(51, a)`. -/
theorem put_refreshes_witness :
    Reachable cacheAB ∧
    find cacheAB.store "a" = some { value := 1, expiry := 100, lruIt := 0 } ∧
    (∃ c', put cacheAB "a" 9 50 1 = some c' ∧ storeKeys c' = storeKeys cacheAB ∧
      size c' = size cacheAB ∧
      find c'.store "a" = some { value := 9, expiry := 1 + 50, lruIt := cacheAB.nextNode } ∧
      (∀ k', k' ≠ "a" → find c'.store k' = find cacheAB.store k') ∧
      lruKeys c' = (lruKeys cacheAB).filter (fun x => decide (x ≠ "a")) ++ ["a"] ∧
      c'.expiryQueue.Perm ((1 + 50, "a") :: cacheAB.expiryQueue) ∧
      c'.capacity = cacheAB.capacity ∧ ((100 : Int), "a") ∈ c'.expiryQueue) ∧
    (put cacheAB "a" 9 50 1).map (fun c => (storeKeys c, lruKeys c, c.expiryQueue)) =
      some (["a", "b"], ["b", "a"], [(51, "a"), (100, "a"), (100, "b")]) :=
  ⟨reachable_cacheAB, by decide,
    put_refreshes cacheAB reachable_cacheAB "a" { value := 1, expiry := 100, lruIt := 0 }
      (by decide) 9 50 1,
    by decide⟩

/-- C15, the drain never evicts a live entry: in every well-formed state (every
reachable state is well formed) the drain `cleanupExpired` at time `now` has a
result; every entry whose stored expiry is after `now` is kept as it is (value,
expiry and iterator), whatever pairs the queue holds; no entry is added or changed;
an entry that is gone had an expiry `≤ now`; and the recency list afterwards is the
old one restricted to the keys still in the table, in the same order. -/
theorem drain_keeps_live (c : HybridCache K V) (hwf : WellFormed c) (now : Int) :
    ∃ c', cleanupExpired c now = some c' ∧
      (∀ k e, find c.store k = some e → now < e.expiry → find c'.store k = some e) ∧
      (∀ k e, find c'.store k = some e → find c.store k = some e) ∧
      (∀ k e, find c.store k = some e → find c'.store k = none → e.expiry ≤ now) ∧
      lruKeys c' = (lruKeys c).filter (fun k => (find c'.store k).isSome) ∧
      c'.capacity = c.capacity :=
  cleanupExpired_live_spec hwf now

/-- Witness of C15: `a` was put with ttl 0 at time 5 and refreshed with ttl 100 at
time 6, so the queue still holds the stale pair `(5, a)`; the drain at time 6 pops
that pair and keeps the entry of `a` with value 7 and expiry 106. -/
theorem drain_keeps_live_witness :
    WellFormed cacheRefreshed ∧
    (∃ c', cleanupExpired cacheRefreshed 6 = some c' ∧
      (∀ k e, find cacheRefreshed.store k = some e → 6 < e.expiry →
        find c'.store k = some e) ∧
      (∀ k e, find c'.store k = some e → find cacheRefreshed.store k = some e) ∧
      (∀ k e, find cacheRefreshed.store k = some e → find c'.store k = none →
        e.expiry ≤ 6) ∧
      lruKeys c' = (lruKeys cacheRefreshed).filter (fun k => (find c'.store k).isSome) ∧
      c'.capacity = cacheRefreshed.capacity) ∧
    (5, "a") ∈ cacheRefreshed.expiryQueue ∧
    (cleanupExpired cacheRefreshed 6).map (fun c => (c.store, lruKeys c, c.expiryQueue)) =
      some ([("a", { value := 7, expiry := 106, lruIt := 1 })], ["a"], [(106, "a")]) :=
  ⟨reachable_cacheRefreshed.inv.1, drain_keeps_live cacheRefreshed
    reachable_cacheRefreshed.inv.1 6, by decide, by decide⟩

/-- C16, the drain is complete: in every reachable state every entry of the table
has its pair `(expiry, key)` in the expiry queue; the drain `cleanupExpired` at any
time `now` has a result and leaves no entry with an expiry `≤ now` and no pair with
a time point `≤ now`; in particular an entry put with ttl 0 at time `t0` is gone
after a drain at any time `now` with `t0 ≤ now`. -/
theorem drain_complete (c : HybridCache K V) (hr : Reachable c) :
    (∀ k e, find c.store k = some e → (e.expiry, k) ∈ c.expiryQueue) ∧
    (∀ now : Int, ∃ c', cleanupExpired c now = some c' ∧ Drained c' now) ∧
    (∀ (k : K) (v : V) (t0 now : Int), t0 ≤ now →
      ∃ c1 c2, put c k v 0 t0 = some c1 ∧ cleanupExpired c1 now = some c2 ∧
        find c2.store k = none) := by
  obtain ⟨hwf, hcap, hsize⟩ := hr.inv
  have hq := hr.queueOk
  refine ⟨hq.2, ?_, ?_⟩
  · intro now
    obtain ⟨c', h1, _, _, h4⟩ := cleanupExpired_drained hwf hq now
    exact ⟨c', h1, h4⟩
  · intro k v t0 now hle
    exact put_zero_drained_spec hwf hcap hsize hq k v t0 now hle

/-- Witness of C16: on the cache that holds `a` with expiry 1, the drain at time 2
empties the table and the queue; `put(z, zero, 0)` at time 3 followed by the drain
at time 3 leaves no `z`. -/
theorem drain_complete_witness :
    Reachable cacheA1 ∧
    ((∀ k e, find cacheA1.store k = some e → (e.expiry, k) ∈ cacheA1.expiryQueue) ∧
    (∀ now : Int, ∃ c', cleanupExpired cacheA1 now = some c' ∧ Drained c' now) ∧
    (∀ (k : String) (v : String) (t0 now : Int), t0 ≤ now →
      ∃ c1 c2, put cacheA1 k v 0 t0 = some c1 ∧ cleanupExpired c1 now = some c2 ∧
        find c2.store k = none)) ∧
    (cleanupExpired cacheA1 2).map (fun c => (c.store, c.lruList, c.expiryQueue)) =
      some ([], [], []) ∧
    ((put cacheA1 "z" "zero" 0 3).bind (fun c => cleanupExpired c 3)).map
      (fun c => (c.store, c.lruList, c.expiryQueue)) = some ([], [], []) :=
  ⟨reachable_cacheA1, drain_complete cacheA1 reachable_cacheA1, by decide, by decide⟩

/-- C17 as stated fails: on the cache of capacity 5 that holds `a` with expiry 1,
`put(b, banana, 5)` at time 2 keeps the expired entry of `a` in the entry table and
the pair `(1, a)` in the expiry queue; `size()` is 2 afterwards. -/
theorem put_drains_counterexample :
    put cacheA1 "b" "banana" 5 2 =
      some { store := [("a", { value := "apple", expiry := 1, lruIt := 0 }),
                       ("b", { value := "banana", expiry := 7, lruIt := 1 })]
             lruList := [(0, "a"), (1, "b")]
             nextNode := 2
             expiryQueue := [(1, "a"), (7, "b")]
             capacity := 5 } ∧
    (put cacheA1 "b" "banana" 5 2).map
      (fun c => ((find c.store "a").map (fun e => decide (e.expiry ≤ 2)), size c)) =
        some (some true, 2) :=
  ⟨by decide, by decide⟩

/-- C17 as amended: `put` does not drain.  In a reachable state `put(k, v, ttl)` at
time `now` has a result; the expiry queue afterwards is the old one plus the pair
`(now + ttl, k)` (no pair is popped); and every key other than `k` keeps its entry,
expired or not, except the head of the recency list, which is evicted when `k` is
new and the table is full. -/
theorem put_does_not_drain (c : HybridCache K V) (hr : Reachable c) (k : K) (v : V)
    (ttl now : Int) :
    ∃ c', put c k v ttl now = some c' ∧
      c'.expiryQueue.Perm ((now + ttl, k) :: c.expiryQueue) ∧
      (∀ k', k' ≠ k → find c'.store k' = find c.store k' ∨
        (find c'.store k' = none ∧ find c.store k = none ∧ c.capacity ≤ size c ∧
          (lruKeys c).head? = some k')) := by
  obtain ⟨hwf, hcap, _⟩ := hr.inv
  obtain ⟨c', h1, h2, _, h4⟩ := put_frame_spec hwf hcap k v ttl now
  exact ⟨c', h1, h2 ▸ pushExpiry_perm _ _, h4⟩

/-- Witness of C17 as amended: `put(b, banana, 5)` at time 2 on the cache that holds
`a` with expiry 1. -/
theorem put_does_not_drain_witness :
    Reachable cacheA1 ∧
    ∃ c', put cacheA1 "b" "banana" 5 2 = some c' ∧
      c'.expiryQueue.Perm ((2 + 5, "b") :: cacheA1.expiryQueue) ∧
      (∀ k', k' ≠ "b" → find c'.store k' = find cacheA1.store k' ∨
        (find c'.store k' = none ∧ find cacheA1.store "b" = none ∧
          cacheA1.capacity ≤ size cacheA1 ∧ (lruKeys cacheA1).head? = some k')) :=
  ⟨reachable_cacheA1, put_does_not_drain cacheA1 reachable_cacheA1 "b" "banana" 5 2⟩

end DrainClaims

end HybridCache

/-! ## The two TTL stores agree -/

namespace KeyValueStore

section QueueLemmas

variable {T : Type} [LT T] [DecidableRel (fun a b : T => a < b)]

theorem pushQueue_perm (q : List (Int × T)) (e : Int × T) :
    (pushQueue q e).Perm (e :: q) := by
  induction q with
  | nil => exact List.Perm.refl _
  | cons x rest ih =>
    unfold pushQueue
    by_cases h : e.1 < x.1 ∨ (e.1 = x.1 ∧ e.2 < x.2)
    · simp only [h, if_true]
      exact List.Perm.refl _
    · simp only [h, if_false]
      exact (List.Perm.cons x ih).trans (List.Perm.swap e x rest)

theorem mem_pushQueue {q : List (Int × T)} {e x : Int × T} :
    x ∈ pushQueue q e ↔ x = e ∨ x ∈ q := by
  rw [(pushQueue_perm q e).mem_iff, List.mem_cons]

theorem pushQueue_sorted {q : List (Int × T)} (e : Int × T)
    (h : q.Pairwise (fun a b => a.1 ≤ b.1)) :
    (pushQueue q e).Pairwise (fun a b => a.1 ≤ b.1) := by
  induction q with
  | nil => simp [pushQueue]
  | cons x rest ih =>
    rw [List.pairwise_cons] at h
    unfold pushQueue
    by_cases hlt : e.1 < x.1 ∨ (e.1 = x.1 ∧ e.2 < x.2)
    · simp only [hlt, if_true]
      have hle : e.1 ≤ x.1 := by
        rcases hlt with h1 | h1
        · exact le_of_lt h1
        · exact le_of_eq h1.1
      rw [List.pairwise_cons]
      refine ⟨?_, List.pairwise_cons.mpr h⟩
      intro y hy
      rcases List.mem_cons.mp hy with hy | hy
      · rw [hy]
        exact hle
      · exact le_trans hle (h.1 y hy)
    · simp only [hlt, if_false]
      rw [List.pairwise_cons]
      refine ⟨?_, ih h.2⟩
      intro y hy
      rcases mem_pushQueue.mp hy with hy | hy
      · rw [hy]
        have : ¬ e.1 < x.1 := fun h1 => hlt (Or.inl h1)
        exact not_lt.mp this
      · exact h.1 y hy

end QueueLemmas

section LoopLemmas

variable {T U : Type} [DecidableEq T]

/-- What the cleanup loop leaves of the queue: a suffix whose head, if any, has a
time point after `now`. -/
theorem storeLoop_queue (now : Int) (q : List (Int × T)) :
    ∀ s : List (T × ValueEntry U),
      (cleanupLoop now q s).2 <:+ q ∧ ∀ p ∈ (cleanupLoop now q s).2.head?, now < p.1 := by
  induction q with
  | nil =>
    intro s
    simp [cleanupLoop]
  | cons p rest ih =>
    intro s
    obtain ⟨t, key⟩ := p
    by_cases ht : t ≤ now
    · have hrec : ∃ s1, cleanupLoop now ((t, key) :: rest) s = cleanupLoop now rest s1 := by
        cases hf : HybridCache.find s key with
        | none => exact ⟨s, by simp only [cleanupLoop, ht, if_true, hf]⟩
        | some e =>
          by_cases hexp : e.expiry ≤ now
          · exact ⟨HybridCache.eraseKey s key,
              by simp only [cleanupLoop, ht, if_true, hf, hexp]⟩
          · exact ⟨s, by simp only [cleanupLoop, ht, if_true, hf, hexp, if_false]⟩
      obtain ⟨s1, h1⟩ := hrec
      rw [h1]
      exact ⟨(ih s1).1.trans (List.suffix_cons _ _), (ih s1).2⟩
    · simp only [cleanupLoop, ht, if_false]
      refine ⟨List.suffix_refl _, ?_⟩
      intro p hp
      simp only [List.head?_cons, Option.mem_def, Option.some.injEq] at hp
      rw [← hp]
      exact not_le.mp ht

/-- The cleanup loop keeps the pair of every entry it leaves in the table. -/
theorem storeLoop_covered (now : Int) (q : List (Int × T)) :
    ∀ s : List (T × ValueEntry U),
      (∀ k e, HybridCache.find s k = some e → (e.expiry, k) ∈ q) →
      ∀ k e, HybridCache.find (cleanupLoop now q s).1 k = some e →
        (e.expiry, k) ∈ (cleanupLoop now q s).2 := by
  induction q with
  | nil =>
    intro s hcov k e hf
    simp only [cleanupLoop] at hf
    exact absurd (hcov k e hf) (List.not_mem_nil _)
  | cons p rest ih =>
    intro s hcov
    obtain ⟨t, key⟩ := p
    by_cases ht : t ≤ now
    · cases hf : HybridCache.find s key with
      | none =>
        simp only [cleanupLoop, ht, if_true, hf]
        apply ih s
        intro k e hk
        rcases List.mem_cons.mp (hcov k e hk) with h1 | h1
        · have : k = key := (Prod.mk.inj h1).2
          rw [this, hf] at hk
          cases hk
        · exact h1
      | some e0 =>
        by_cases hexp : e0.expiry ≤ now
        · simp only [cleanupLoop, ht, if_true, hf, hexp]
          apply ih
          intro k e hk
          rw [HybridCache.find_eraseKey] at hk
          by_cases hkk : k = key
          · simp [hkk] at hk
          · simp only [hkk, if_false] at hk
            rcases List.mem_cons.mp (hcov k e hk) with h1 | h1
            · exact absurd (Prod.mk.inj h1).2 hkk
            · exact h1
        · simp only [cleanupLoop, ht, if_true, hf, hexp, if_false]
          apply ih s
          intro k e hk
          rcases List.mem_cons.mp (hcov k e hk) with h1 | h1
          · obtain ⟨h2, h3⟩ := Prod.mk.inj h1
            subst h3
            rw [hf] at hk
            cases hk
            exact absurd (h2 ▸ ht) hexp
          · exact h1
    · simp only [cleanupLoop, ht, if_false]
      exact hcov

theorem queueOk_empty : QueueOk (empty : KeyValueStore T U) :=
  ⟨List.Pairwise.nil, fun k e hf => by simp [empty, HybridCache.find] at hf⟩

/-- After the cleanup at time `now` the invariant still holds and no entry of the
table has an expiry `≤ now`. -/
theorem cleanup_spec {kv : KeyValueStore T U} (h : QueueOk kv) (now : Int) :
    QueueOk (cleanup kv now) ∧
      ∀ k e, HybridCache.find (cleanup kv now).store k = some e → now < e.expiry := by
  obtain ⟨hsuf, hhead⟩ := storeLoop_queue (U := U) now kv.expiry_queue kv.store
  have hcov := storeLoop_covered now kv.expiry_queue kv.store h.2
  have hsorted : (cleanupLoop now kv.expiry_queue kv.store).2.Pairwise
      (fun a b => a.1 ≤ b.1) := h.1.sublist hsuf.sublist
  have hall := HybridCache.sorted_head_lt hsorted hhead
  exact ⟨⟨hsorted, hcov⟩, fun k e hk => hall _ (hcov k e hk)⟩

theorem getH_snd [Inhabited U] (kv : KeyValueStore T U) (key : T) (now : Int) :
    (getH kv key now).2 = cleanup kv now := by
  simp only [getH]
  cases HybridCache.find (cleanup kv now).store key with
  | none => rfl
  | some e =>
    by_cases hlive : now < e.expiry
    · simp only [hlive, if_true]
    · simp only [hlive, if_false]

theorem getCpp_eq_getH [Inhabited U] {kv : KeyValueStore T U} (h : QueueOk kv) (key : T)
    (now : Int) : getCpp kv key now = getH kv key now := by
  simp only [getCpp, getH]
  cases hf : HybridCache.find (cleanup kv now).store key with
  | none => rfl
  | some e =>
    have := (cleanup_spec h now).2 key e hf
    simp only [this, if_true]

theorem queueOk_getH [Inhabited U] {kv : KeyValueStore T U} (h : QueueOk kv) (key : T)
    (now : Int) : QueueOk (getH kv key now).2 := by
  rw [getH_snd]
  exact (cleanup_spec h now).1

end LoopLemmas

section StoreLemmas

variable {T U : Type} [DecidableEq T] [LT T] [DecidableRel (fun a b : T => a < b)]

theorem queueOk_put {kv : KeyValueStore T U} (h : QueueOk kv) (key : T) (value : U)
    (ttl now : Int) : QueueOk (put kv key value ttl now) := by
  refine ⟨pushQueue_sorted _ h.1, ?_⟩
  intro k e hk
  simp only [put, HybridCache.find_assign] at hk
  simp only [put]
  rw [mem_pushQueue]
  by_cases hkk : k = key
  · subst hkk
    simp only [if_true, Option.some.injEq] at hk
    rw [← hk]
    exact Or.inl rfl
  · simp only [hkk, if_false] at hk
    exact Or.inr (h.2 k e hk)

theorem runCpp_eq_runH [Inhabited U] (calls : List (Call T U × Int)) :
    ∀ kv : KeyValueStore T U, QueueOk kv →
      runCpp kv calls = runH kv calls ∧ QueueOk (runH kv calls).2 := by
  induction calls with
  | nil =>
    intro kv h
    exact ⟨rfl, h⟩
  | cons c rest ih =>
    intro kv h
    obtain ⟨call, now⟩ := c
    cases call with
    | put key value ttl =>
      simp only [runCpp, runH]
      exact ih _ (queueOk_put h key value ttl now)
    | get key =>
      have h1 := ih _ (queueOk_getH h key now)
      simp only [runCpp, runH, getCpp_eq_getH h key now, h1.1]
      exact ⟨trivial, h1.2⟩

theorem sampleCalls_agree :
    runCpp (empty : KeyValueStore Nat String) sampleCalls = (["one", "", ""], empty) ∧
    runH (empty : KeyValueStore Nat String) sampleCalls = (["one", "", ""], empty) :=
  ⟨by decide, by decide⟩

end StoreLemmas

section StoreClaims

variable {T U : Type} [DecidableEq T] [LT T] [DecidableRel (fun a b : T => a < b)]

/-- C19, the two `KeyValueStore` versions agree: for every sequence of `put` and `get`
calls at arbitrary times applied to the empty store, the class of `src/cache.cpp`
returns the same values and ends in the same state as the class of `src/cache.h`;
and in the state `kv` reached by such a sequence, for every key and time `now`, the
two `get` return the same value and leave the same state, because after the cleanup
at `now` every entry of the table has an expiry after `now`. -/
theorem stores_agree [Inhabited U] (calls : List (Call T U × Int)) :
    runCpp (empty : KeyValueStore T U) calls = runH empty calls ∧
    ∀ (key : T) (now : Int),
      getCpp (runH (empty : KeyValueStore T U) calls).2 key now =
        getH (runH empty calls).2 key now ∧
      ∀ k e, HybridCache.find (cleanup (runH (empty : KeyValueStore T U) calls).2 now).store k
        = some e → now < e.expiry := by
  obtain ⟨h1, h2⟩ := runCpp_eq_runH calls (empty : KeyValueStore T U) queueOk_empty
  exact ⟨h1, fun key now => ⟨getCpp_eq_getH h2 key now, (cleanup_spec h2 now).2⟩⟩

end StoreClaims

end KeyValueStore

/-! ## The trie -/

namespace Trie

section TrieLemmas

theorem index_eq_some {ch : Char} {i : Fin 26} (h : index ch = some i) :
    ch.toNat = i.val + 97 := by
  unfold index at h
  split at h
  · rename_i hr
    simp only [Option.some.injEq] at h
    rw [← h]
    simp only
    omega
  · cases h

theorem index_inj {ch ch' : Char} {i : Fin 26} (h : index ch = some i)
    (h' : index ch' = some i) : ch = ch' := by
  have h1 := index_eq_some h
  have h2 := index_eq_some h'
  apply Char.ext
  apply UInt32.toNat.inj
  show ch.toNat = ch'.toNat
  rw [h1, h2]

theorem accepts_new (w : List Char) : accepts w trie_node.new = false := by
  cases w with
  | nil => rfl
  | cons ch rest =>
    simp only [accepts]
    cases index ch with
    | none => rfl
    | some i => rfl

theorem accepts_getD_new (w : List Char) (o : Option trie_node) :
    accepts w (o.getD trie_node.new) =
      match o with
      | none => false
      | some next => accepts w next := by
  cases o with
  | none => exact accepts_new w
  | some next => rfl

/-- The loop of `insert` on a lowercase word has a result, and the node afterwards
accepts the word and whatever the node accepted before. -/
theorem insertLoop_spec (w : List Char) :
    ∀ n : trie_node, Lowercase w →
      ∃ n', insertLoop w n = some n' ∧
        ∀ w', accepts w' n' = (decide (w' = w) || accepts w' n) := by
  induction w with
  | nil =>
    intro n _
    refine ⟨_, rfl, ?_⟩
    intro w'
    cases w' with
    | nil => simp [accepts, trie_node.is_end_of_word]
    | cons ch' rest' =>
      cases n with
      | mk e c => simp [accepts, trie_node.children]
  | cons ch rest ih =>
    intro n hlow
    have hch : (index ch).isSome = true := hlow ch (List.mem_cons_self _ _)
    have hrest : Lowercase rest := fun x hx => hlow x (List.mem_cons_of_mem _ hx)
    cases hi : index ch with
    | none => simp [hi] at hch
    | some i =>
      obtain ⟨child, hchild, hacc⟩ := ih ((n.children i).getD trie_node.new) hrest
      refine ⟨trie_node.mk n.is_end_of_word
        (fun j => if j = i then some child else n.children j),
        by simp only [insertLoop, hi, hchild], ?_⟩
      intro w'
      cases w' with
      | nil =>
        cases n with
        | mk e c => simp [accepts, trie_node.is_end_of_word]
      | cons ch' rest' =>
        simp only [accepts]
        cases hj : index ch' with
        | none =>
          have hne : ch' ≠ ch := by
            rintro rfl
            rw [hi] at hj
            cases hj
          simp [hne]
        | some j =>
          by_cases hji : j = i
          · subst hji
            have heq : ch' = ch := index_inj hj hi
            subst heq
            simp only [trie_node.children, if_true, hacc, accepts_getD_new, List.cons.injEq,
              true_and]
          · have hne : ch' ≠ ch := by
              rintro rfl
              rw [hi] at hj
              exact hji (Option.some.inj hj).symm
            simp [trie_node.children, hji, hne]

theorem insertAll_spec (dict : List (List Char)) :
    ∀ t : Trie, (∀ w ∈ dict, Lowercase w) →
      ∃ t', insertAll t dict = some t' ∧
        ∀ w', accepts w' t'.root = (decide (w' ∈ dict) || accepts w' t.root) := by
  induction dict with
  | nil =>
    intro t _
    exact ⟨t, rfl, fun w' => by simp⟩
  | cons w rest ih =>
    intro t hlow
    obtain ⟨n', h1, h2⟩ := insertLoop_spec w t.root (hlow w (List.mem_cons_self _ _))
    obtain ⟨t', h3, h4⟩ := ih { root := n' } (fun x hx => hlow x (List.mem_cons_of_mem _ hx))
    refine ⟨t', by simp only [insertAll, insert, h1, h3], ?_⟩
    intro w'
    rw [h4 w', h2 w']
    by_cases hw : w' = w
    · simp [hw]
    · by_cases hr : w' ∈ rest
      · simp [hr]
      · simp [hw, hr]

/-- The trie built from a lowercase dictionary accepts exactly the words of the
dictionary. -/
theorem insertAll_new_spec (dict : List (List Char)) (hlow : ∀ w ∈ dict, Lowercase w) :
    ∃ t, insertAll Trie.new dict = some t ∧
      ∀ w', accepts w' t.root = true ↔ w' ∈ dict := by
  obtain ⟨t, h1, h2⟩ := insertAll_spec dict Trie.new hlow
  refine ⟨t, h1, ?_⟩
  intro w'
  rw [h2 w']
  have : accepts w' Trie.new.root = false := accepts_new w'
  simp [this]

/-- The loop of `search` from a node that is not the end of a word, on a lowercase
word: it has a result, which is true exactly when the node accepts a prefix of the
word. -/
theorem searchLoop_spec (w : List Char) :
    ∀ n : trie_node, Lowercase w → n.is_end_of_word = false →
      ∃ b, searchLoop w n = some b ∧ (b = true ↔ ∃ p, p <+: w ∧ accepts p n = true) := by
  induction w with
  | nil =>
    intro n _ hn
    refine ⟨n.is_end_of_word, rfl, ?_⟩
    rw [hn]
    constructor
    · intro h
      cases h
    · rintro ⟨p, hp, hacc⟩
      rw [List.prefix_nil] at hp
      subst hp
      simp only [accepts, hn] at hacc
      cases hacc
  | cons ch rest ih =>
    intro n hlow hn
    have hch : (index ch).isSome = true := hlow ch (List.mem_cons_self _ _)
    have hrest : Lowercase rest := fun x hx => hlow x (List.mem_cons_of_mem _ hx)
    cases hi : index ch with
    | none => simp [hi] at hch
    | some i =>
      have hshape : ∀ p, p <+: ch :: rest → accepts p n = true →
          ∃ t next, p = ch :: t ∧ t <+: rest ∧ n.children i = some next ∧
            accepts t next = true := by
        intro p hp hacc
        rcases List.prefix_cons_iff.mp hp with h1 | ⟨t, h1, h2⟩
        · subst h1
          simp only [accepts, hn] at hacc
          cases hacc
        · subst h1
          simp only [accepts, hi] at hacc
          cases hc : n.children i with
          | none => simp [hc] at hacc
          | some next =>
            simp only [hc] at hacc
            exact ⟨t, next, rfl, h2, rfl, hacc⟩
      cases hc : n.children i with
      | none =>
        refine ⟨n.is_end_of_word, by simp only [searchLoop, hi, hc], ?_⟩
        rw [hn]
        constructor
        · intro h
          cases h
        · rintro ⟨p, hp, hacc⟩
          obtain ⟨_, next, _, _, h3, _⟩ := hshape p hp hacc
          rw [hc] at h3
          cases h3
      | some next =>
        by_cases hend : next.is_end_of_word = true
        · refine ⟨true, by simp only [searchLoop, hi, hc, hend, if_true], ?_⟩
          refine ⟨fun _ => ⟨[ch], ?_, ?_⟩, fun _ => rfl⟩
          · exact List.cons_prefix_cons.mpr ⟨rfl, List.nil_prefix⟩
          · simp only [accepts, hi, hc, hend]
        · have hend' : next.is_end_of_word = false := by
            cases h : next.is_end_of_word with
            | true => exact absurd h hend
            | false => rfl
          obtain ⟨b, hb, hiff⟩ := ih next hrest hend'
          refine ⟨b, by simp only [searchLoop, hi, hc, hend', Bool.false_eq_true, if_false, hb],
            ?_⟩
          rw [hiff]
          constructor
          · rintro ⟨p', hp', hacc'⟩
            refine ⟨ch :: p', List.cons_prefix_cons.mpr ⟨rfl, hp'⟩, ?_⟩
            simp only [accepts, hi, hc, hacc']
          · rintro ⟨p, hp, hacc⟩
            obtain ⟨t, next', _, h2, h3, h4⟩ := hshape p hp hacc
            rw [hc] at h3
            cases h3
            exact ⟨t, h2, h4⟩

/-- On a trie that accepts exactly the non-empty words of a dictionary, `search` of
a lowercase word has a result, which is true exactly when a word of the dictionary
is a prefix of the word. -/
theorem search_spec {t : Trie} {dict : List (List Char)}
    (hacc : ∀ w', accepts w' t.root = true ↔ w' ∈ dict) (hne : ∀ w ∈ dict, w ≠ [])
    (w : List Char) (hw : Lowercase w) :
    ∃ b, search t w = some b ∧ (b = true ↔ ∃ d, d ∈ dict ∧ d <+: w) := by
  have hroot : t.root.is_end_of_word = false := by
    cases h : t.root.is_end_of_word with
    | false => rfl
    | true =>
      have : accepts [] t.root = true := h
      exact absurd rfl (hne [] ((hacc []).mp this))
  obtain ⟨b, hb, hiff⟩ := searchLoop_spec w t.root hw hroot
  refine ⟨b, hb, ?_⟩
  rw [hiff]
  constructor
  · rintro ⟨p, hp, h⟩
    exact ⟨p, (hacc p).mp h, hp⟩
  · rintro ⟨d, hd, hp⟩
    exact ⟨d, hp, (hacc d).mpr hd⟩

/-- The `for` loop of `wordBreak` on the lowercase rest of the word, when the
recursive calls beyond position `i` have results that decide `P`: the loop has a
result, which is true exactly when the node accepts a non-empty prefix `p` of the
rest with `P` at the position after `p`. -/
theorem wordBreakLoop_spec (recurse : Nat → Option Bool) (P : Nat → Prop)
    (rest : List Char) :
    ∀ (n : trie_node) (i : Nat), Lowercase rest →
      (∀ j, i < j → j ≤ i + rest.length → ∃ b, recurse j = some b ∧ (b = true ↔ P j)) →
      ∃ b, wordBreakLoop recurse rest n i = some b ∧
        (b = true ↔ ∃ p, p ≠ [] ∧ p <+: rest ∧ accepts p n = true ∧ P (i + p.length)) := by
  induction rest with
  | nil =>
    intro n i _ _
    refine ⟨false, rfl, ?_⟩
    constructor
    · intro h
      cases h
    · rintro ⟨p, hp, hpre, _⟩
      exact absurd (List.prefix_nil.mp hpre) hp
  | cons ch rest ih =>
    intro n i hlow hrec
    have hch : (index ch).isSome = true := hlow ch (List.mem_cons_self _ _)
    have hrest : Lowercase rest := fun x hx => hlow x (List.mem_cons_of_mem _ hx)
    cases hi : index ch with
    | none => simp [hi] at hch
    | some idx =>
      cases hc : n.children idx with
      | none =>
        refine ⟨false, by simp only [wordBreakLoop, hi, hc], ?_⟩
        constructor
        · intro h
          cases h
        · rintro ⟨p, hp, hpre, hacc, _⟩
          rcases List.prefix_cons_iff.mp hpre with h1 | ⟨t, h1, _⟩
          · exact absurd h1 hp
          · subst h1
            simp [accepts, hi, hc] at hacc
      | some next =>
        have hrec' : ∀ j, i + 1 < j → j ≤ i + 1 + rest.length →
            ∃ b, recurse j = some b ∧ (b = true ↔ P j) := by
          intro j h1 h2
          apply hrec j (by omega)
          simp only [List.length_cons]
          omega
        obtain ⟨b', hb', hiff'⟩ := ih next (i + 1) hrest hrec'
        have key : (∃ p, p ≠ [] ∧ p <+: ch :: rest ∧ accepts p n = true ∧ P (i + p.length)) ↔
            (next.is_end_of_word = true ∧ P (i + 1)) ∨ b' = true := by
          rw [hiff']
          constructor
          · rintro ⟨p, hp, hpre, hacc, hP⟩
            rcases List.prefix_cons_iff.mp hpre with h1 | ⟨t, h1, h2⟩
            · exact absurd h1 hp
            · subst h1
              simp only [accepts, hi, hc] at hacc
              cases t with
              | nil =>
                left
                exact ⟨hacc, hP⟩
              | cons c2 t2 =>
                right
                refine ⟨c2 :: t2, by simp, h2, hacc, ?_⟩
                simp only [List.length_cons] at hP ⊢
                have : i + 1 + (t2.length + 1) = i + (t2.length + 1 + 1) := by omega
                rw [this]
                exact hP
          · rintro (⟨hend, hP⟩ | ⟨p', hp', hpre', hacc', hP'⟩)
            · refine ⟨[ch], by simp, List.cons_prefix_cons.mpr ⟨rfl, List.nil_prefix⟩, ?_, hP⟩
              simp only [accepts, hi, hc, hend]
            · refine ⟨ch :: p', by simp, List.cons_prefix_cons.mpr ⟨rfl, hpre'⟩, ?_, ?_⟩
              · simp only [accepts, hi, hc, hacc']
              · simp only [List.length_cons]
                have : i + (p'.length + 1) = i + 1 + p'.length := by omega
                rw [this]
                exact hP'
        by_cases hend : next.is_end_of_word = true
        · obtain ⟨b0, hb0, hiff0⟩ := hrec (i + 1) (by omega)
            (by simp only [List.length_cons]; omega)
          cases b0 with
          | true =>
            refine ⟨true, by simp only [wordBreakLoop, hi, hc, hend, if_true, hb0], ?_⟩
            rw [key]
            exact ⟨fun _ => Or.inl ⟨hend, hiff0.mp rfl⟩, fun _ => rfl⟩
          | false =>
            refine ⟨b', by simp only [wordBreakLoop, hi, hc, hend, if_true, hb0, hb'], ?_⟩
            rw [key]
            constructor
            · intro h
              exact Or.inr h
            · rintro (⟨_, hP⟩ | h)
              · have := hiff0.mpr hP
                cases this
              · exact h
        · refine ⟨b', by simp only [wordBreakLoop, hi, hc, hend, if_false, hb',
            Bool.false_eq_true], ?_⟩
          rw [key]
          constructor
          · intro h
            exact Or.inr h
          · rintro (⟨h1, _⟩ | h)
            · exact absurd h1 hend
            · exact h

theorem segmentable_nil (dict : List (List Char)) : Segmentable dict [] :=
  ⟨[], fun w hw => absurd hw (List.not_mem_nil w), rfl⟩

/-- A non-empty string is segmentable over a dictionary of non-empty words exactly
when it starts with a word of the dictionary and the rest is segmentable. -/
theorem segmentable_iff {dict : List (List Char)} (hne : ∀ w ∈ dict, w ≠ [])
    {s : List Char} (hs : s ≠ []) :
    Segmentable dict s ↔
      ∃ p, p ≠ [] ∧ p <+: s ∧ p ∈ dict ∧ Segmentable dict (s.drop p.length) := by
  constructor
  · rintro ⟨ws, hws, hflat⟩
    cases ws with
    | nil => exact absurd hflat.symm hs
    | cons w ws' =>
      have hw : w ∈ dict := hws w (List.mem_cons_self _ _)
      simp only [List.flatten_cons] at hflat
      refine ⟨w, hne w hw, ⟨ws'.flatten, hflat⟩, hw, ws', ?_, ?_⟩
      · exact fun x hx => hws x (List.mem_cons_of_mem _ hx)
      · rw [← hflat, List.drop_left]
  · rintro ⟨p, _, ⟨r, hr⟩, hp, ws', hws', hflat'⟩
    refine ⟨p :: ws', ?_, ?_⟩
    · intro x hx
      rcases List.mem_cons.mp hx with h | h
      · rw [h]
        exact hp
      · exact hws' x h
    · rw [← hr, List.drop_left] at hflat'
      simp only [List.flatten_cons, hflat', hr]

theorem lowercase_drop {w : List Char} (h : Lowercase w) (n : Nat) : Lowercase (w.drop n) :=
  fun ch hch => h ch (List.mem_of_mem_drop hch)

/-- On a trie that accepts exactly the non-empty words of a dictionary, and for a
lowercase word: `wordBreak(word, start, {})` with a recursion depth greater than
`word.length() - start` has a result, which is true exactly when the word from
position `start` on is segmentable. -/
theorem wordBreak_spec {t : Trie} {dict : List (List Char)}
    (hacc : ∀ w', accepts w' t.root = true ↔ w' ∈ dict) (hne : ∀ w ∈ dict, w ≠ [])
    (word : List Char) (hlow : Lowercase word) :
    ∀ fuel start : Nat, start ≤ word.length → word.length - start < fuel →
      ∃ b, wordBreak t word fuel start [] = some b ∧
        (b = true ↔ Segmentable dict (word.drop start)) := by
  intro fuel
  induction fuel with
  | zero =>
    intro start _ h
    exact absurd h (Nat.not_lt_zero _)
  | succ fuel ih =>
    intro start hle hfuel
    by_cases hend : start = word.length
    · refine ⟨true, by simp only [wordBreak, hend, if_true], ?_⟩
      rw [hend, List.drop_length]
      exact ⟨fun _ => segmentable_nil dict, fun _ => rfl⟩
    · have hlt : start < word.length := lt_of_le_of_ne hle hend
      have hloop := wordBreakLoop_spec (fun j => wordBreak t word fuel j [])
        (fun j => Segmentable dict (word.drop j)) (word.drop start) t.root start
        (lowercase_drop hlow start)
        (by
          intro j h1 h2
          rw [List.length_drop] at h2
          exact ih j (by omega) (by omega))
      obtain ⟨b, hb, hiff⟩ := hloop
      refine ⟨b, by simp only [wordBreak, hend, if_false, HybridCache.find, hb], ?_⟩
      have hs : word.drop start ≠ [] := by
        intro h
        have := congrArg List.length h
        rw [List.length_drop] at this
        simp only [List.length_nil] at this
        omega
      rw [hiff, segmentable_iff hne hs]
      constructor
      · rintro ⟨p, h1, h2, h3, h4⟩
        refine ⟨p, h1, h2, (hacc p).mp h3, ?_⟩
        rw [List.drop_drop]
        exact h4
      · rintro ⟨p, h1, h2, h3, h4⟩
        refine ⟨p, h1, h2, (hacc p).mpr h3, ?_⟩
        rw [List.drop_drop] at h4
        exact h4

end TrieLemmas

section TrieClaims

/-- C20, `Trie::search` is a prefix match: for every dictionary of non-empty lowercase
words, inserting the words into a new trie has a result `t`; for every lowercase
word `w`, `search(w)` on `t` has a result, which is true exactly when some word of the
dictionary is a prefix of `w`; hence `search` is true for every inserted word. -/
theorem search_is_prefix_match (dict : List (List Char)) (hlow : ∀ w ∈ dict, Lowercase w)
    (hne : ∀ w ∈ dict, w ≠ []) :
    ∃ t, insertAll Trie.new dict = some t ∧
      (∀ w, Lowercase w →
        ∃ b, search t w = some b ∧ (b = true ↔ ∃ d, d ∈ dict ∧ d <+: w)) ∧
      (∀ d ∈ dict, search t d = some true) := by
  obtain ⟨t, h1, hacc⟩ := insertAll_new_spec dict hlow
  refine ⟨t, h1, fun w hw => search_spec hacc hne w hw, ?_⟩
  intro d hd
  obtain ⟨b, hb, hiff⟩ := search_spec hacc hne d (hlow d hd)
  have : b = true := hiff.mpr ⟨d, hd, List.prefix_refl d⟩
  rw [hb, this]

/-- Witness of C20: after `insert("ple")` alone, `search("ple")` is true,
`search("pleasant")` is true although `pleasant` was never inserted, and
`search("pl")` is false. -/
theorem search_is_prefix_match_witness :
    (∀ w ∈ ["ple".toList], Lowercase w) ∧ (∀ w ∈ ["ple".toList], w ≠ []) ∧
    (∃ t, insertAll Trie.new ["ple".toList] = some t ∧
      (∀ w, Lowercase w →
        ∃ b, search t w = some b ∧ (b = true ↔ ∃ d, d ∈ ["ple".toList] ∧ d <+: w)) ∧
      (∀ d ∈ ["ple".toList], search t d = some true)) ∧
    "pleasant".toList ∉ ["ple".toList] ∧
    (insertAll Trie.new ["ple".toList]).bind (fun t => search t "pleasant".toList) =
      some true ∧
    (insertAll Trie.new ["ple".toList]).bind (fun t => search t "pl".toList) = some false :=
  ⟨by decide, by decide,
    search_is_prefix_match ["ple".toList] (by decide) (by decide), by decide, by decide,
    by decide⟩

/-- C13, the word segmentation is correct: for every dictionary of non-empty
lowercase words, inserting the words into a new trie has a result `t`, and for every
lowercase string `s`, `canSegment(s)` on `t` returns a result, which is true exactly
when `s` is the concatenation of zero or more words of the dictionary; `wordBreak`
from position 0 gives the same result with every greater recursion depth. -/
theorem canSegment_correct (dict : List (List Char)) (hlow : ∀ w ∈ dict, Lowercase w)
    (hne : ∀ w ∈ dict, w ≠ []) (s : List Char) (hs : Lowercase s) :
    ∃ t, insertAll Trie.new dict = some t ∧
      ∃ b, canSegment t s = some b ∧ (b = true ↔ Segmentable dict s) ∧
        ∀ fuel, s.length < fuel → wordBreak t s fuel 0 [] = some b := by
  obtain ⟨t, h1, hacc⟩ := insertAll_new_spec dict hlow
  obtain ⟨b, hb, hiff⟩ := wordBreak_spec hacc hne s hs (s.length + 1) 0 (Nat.zero_le _)
    (by omega)
  rw [List.drop_zero] at hiff
  refine ⟨t, h1, b, hb, hiff, ?_⟩
  intro fuel hfuel
  obtain ⟨b2, hb2, hiff2⟩ := wordBreak_spec hacc hne s hs fuel 0 (Nat.zero_le _) (by omega)
  rw [List.drop_zero] at hiff2
  have : b2 = b := by
    cases b <;> cases b2 <;> simp_all
  rw [hb2, this]

/-- Witness of C13: with the dictionary `please`, `apple`, `ple` of the test driver,
`canSegment` is true on `pleaseapple`, false on `pleeaseapple` and true on the empty
string. -/
theorem canSegment_correct_witness :
    (∀ w ∈ driverDict, Lowercase w) ∧ (∀ w ∈ driverDict, w ≠ []) ∧
    Lowercase "pleaseapple".toList ∧
    (∃ t, insertAll Trie.new driverDict = some t ∧
      ∃ b, canSegment t "pleaseapple".toList = some b ∧
        (b = true ↔ Segmentable driverDict "pleaseapple".toList) ∧
        ∀ fuel, "pleaseapple".toList.length < fuel →
          wordBreak t "pleaseapple".toList fuel 0 [] = some b) ∧
    (insertAll Trie.new driverDict).bind (fun t => canSegment t "pleaseapple".toList) =
      some true ∧
    (insertAll Trie.new driverDict).bind (fun t => canSegment t "pleeaseapple".toList) =
      some false ∧
    (insertAll Trie.new driverDict).bind (fun t => canSegment t "".toList) = some true :=
  ⟨by decide, by decide, by decide,
    canSegment_correct driverDict (by decide) (by decide) "pleaseapple".toList (by decide),
    by decide, by decide, by decide⟩

/-- C18 as stated fails: with the dictionary `please`, `apple`, `ple` inserted,
`canSegment("applepleapple")` returns true, not false. -/
theorem applepleapple_counterexample :
    (insertAll Trie.new driverDict).bind (fun t => canSegment t "applepleapple".toList) =
      some true ∧
    (insertAll Trie.new driverDict).bind (fun t => canSegment t "applepleapple".toList) ≠
      some false :=
  ⟨by decide, by decide⟩

/-- C18 as amended: with the dictionary `please`, `apple`, `ple` inserted, the string
`applepleapple` is breakable, as `apple` + `ple` + `apple`, and
`canSegment("applepleapple")` returns true. -/
theorem applepleapple_breakable :
    Segmentable driverDict "applepleapple".toList ∧
    ∃ t, insertAll Trie.new driverDict = some t ∧
      canSegment t "applepleapple".toList = some true := by
  refine ⟨⟨["apple".toList, "ple".toList, "apple".toList], by decide, by decide⟩, ?_⟩
  cases h : insertAll Trie.new driverDict with
  | none =>
    have : (insertAll Trie.new driverDict).isSome = true := by decide
    rw [h] at this
    cases this
  | some t =>
    refine ⟨t, rfl, ?_⟩
    have h2 : (insertAll Trie.new driverDict).bind
        (fun t => canSegment t "applepleapple".toList) = some true := by decide
    rw [h] at h2
    exact h2

end TrieClaims

end Trie
